import Mathlib

/-!
# sprof: static profile synthesis

A shallow embedding of `main.go` of felixge/sprof: the function identity
`Func` and its rendering, the path tracker `Stack` (`NewStack`, `Stack.Add`),
the bounded depth-first walk `createStaticProfile` over a call graph, as `run`
starts it, and the part of `run` that encodes the samples as a profile
document and writes it.

Conventions of the embedding.

* A `*callgraph.Node` is a node identifier; the graph maps every identifier to
  the node it points to, so edges may form arbitrary cycles.
* `int64` arithmetic is arithmetic on `Int` wrapped to 64 bits by `int64`.
* A Go runtime panic (integer division by zero, failed type assertion) is the
  outcome `Outcome.crash`.
* `run` starts the walk at `CallGraph.Root`, the synthetic root node, which
  has no syntax; statements about the walk of `run` take this as a hypothesis.
* A pointer to a record of the profile document is the record itself; records
  are never modified after they are appended.
* `uint64` counters are natural numbers wrapped to 64 bits by `uint64`.
* The recursion of `createStaticProfile` is driven by a fuel counter; running
  out of fuel is the separate outcome `Outcome.outOfFuel`, and the development
  shows that nine units of fuel are always enough.
-/

namespace Sprof

/-! ## Data model -/

/-- The struct `Func` of `main.go`: the identity of a function. -/
structure Func where
  PkgPath : String
  Receiver : String
  Name : String
deriving DecidableEq, Repr, Inhabited

/-- The struct `Sample` of `main.go`; `Count` is an `int64`. -/
structure Sample where
  Frames : List Func
  Count : Int
deriving DecidableEq, Repr

/-- The struct `Stack` of `main.go`; `seen` is the key set of the
`map[Func]struct{}`. -/
structure Stack where
  stack : List Func
  seen : Finset Func
deriving DecidableEq

/-- Inserting keys into a map commutes: the order in which a `range` loop
visits the keys does not matter. -/
instance insertLeftComm : LeftCommutative (insert : Func → Finset Func → Finset Func) :=
  ⟨fun a b m => Finset.Insert.comm a b m⟩

/-- The function `NewStack`: no frames (a nil slice) and an empty map. -/
def NewStack : Stack := ⟨[], ∅⟩

/-- Go's builtin `copy(dst, src)`: the first `min (len dst) (len src)` elements
of `dst` are overwritten with those of `src`. -/
def copy (dst src : List Func) : List Func :=
  src.take dst.length ++ dst.drop src.length

/-- The method `Stack.Add`. The map starts as `{fn}` and receives every key of
`s.seen`; the slice is made with `len(s.stack)+1` zero values, `s.stack` is
copied into it and its last slot is set to `fn`. The receiver is not
modified. -/
def Stack.Add (s : Stack) (fn : Func) : Stack :=
  let seen : Finset Func := Multiset.foldr insert {fn} s.seen.val
  let stack := List.replicate (s.stack.length + 1) (default : Func)
  let stack := copy stack s.stack
  let stack := stack.set (stack.length - 1) fn
  { seen := seen, stack := stack }

/-- The source range of a function body: `syn.Pos()` and `syn.End()`
(values of `token.Pos`, an `int`). -/
structure AstNode where
  Pos : Int
  End : Int
deriving DecidableEq, Repr

/-- What the type switch of `NewFunc` distinguishes in the type of a receiver:
a `*types.Pointer` whose element is a `*types.Named` (of the given object
name), a `*types.Pointer` whose element is any other type, a `*types.Named`
(of the given object name), or any other type. -/
inductive RecvType where
  | pointer (elemName : String)
  | pointerToOther
  | named (objName : String)
  | other
deriving DecidableEq, Repr

/-- The part of `ssa.Function` that `main.go` reads: `Name()`, the path of
`Pkg` (absent when `Pkg` is nil), the receiver of `Signature` (absent when
`Recv()` is nil) and `Syntax()` (absent when nil). -/
structure SsaFunction where
  Name : String
  Pkg : Option String
  Recv : Option RecvType
  Syn : Option AstNode
deriving DecidableEq, Repr

/-- A node identifier stands for a `*callgraph.Node`. -/
abbrev NodeId := Nat

/-- A `callgraph.Node`: its function and, for each outgoing edge in order, the
edge's `Callee`. -/
structure Node where
  Fn : SsaFunction
  Out : List NodeId

/-- A `callgraph.Graph`: the nodes behind the pointers, and the `Root`. -/
structure Graph where
  node : NodeId → Node
  Root : NodeId

/-- The function `NewFunc`. The receiver string starts empty, so `+=` yields
the appended text. The result is `none` when the unchecked assertion
`t.Elem().(*types.Named)` of the pointer case panics, which it does for a
pointer receiver whose element is not a `*types.Named`. -/
def NewFunc (fn : Node) : Option Func :=
  let f : Func := { PkgPath := "", Receiver := "", Name := fn.Fn.Name }
  let f : Func :=
    match fn.Fn.Pkg with
    | some path => { f with PkgPath := path }
    | none => f
  match fn.Fn.Recv with
  | some (RecvType.pointer elemName) =>
    some { f with Receiver := f.Receiver ++ ("*" ++ elemName) }
  | some RecvType.pointerToOther => none
  | some (RecvType.named objName) => some { f with Receiver := f.Receiver ++ objName }
  | some RecvType.other => some f
  | none => some f

/-! ## The walk -/

/-- Wrap an integer to the range of `int64`. -/
def int64 (x : Int) : Int := (x + 2 ^ 63) % 2 ^ 64 - 2 ^ 63

/-- What a call of `createStaticProfile` yields: the extended sample list, a
runtime panic, or exhausted fuel. -/
inductive Outcome where
  | ok (out : List Sample)
  | crash
  | outOfFuel
deriving DecidableEq, Repr

/-- Lines 171-175 of `createStaticProfile`: the value of `count` after the
first `if` statement (the self weight), or `none` when the division panics
because the divisor `len(s.stack)` is zero. -/
def selfWeight (s : Stack) (n : Node) : Option Int :=
  match n.Fn.Syn with
  | some syn =>
    let l := int64 (syn.End - syn.Pos)
    if (s.stack.length : Int) = 0 then none
    else some (int64 (0 + int64 (Int.tdiv l (s.stack.length : Int))))
  | none => some 0

/-- Lines 171-178 of `createStaticProfile`: the value of `count` after the
second `if` statement, which adds one for a node without outgoing edges. -/
def weigh (s : Stack) (n : Node) : Option Int :=
  match selfWeight s n with
  | none => none
  | some count => if n.Out.length = 0 then some (int64 (count + 1)) else some count

/-- Lines 179-181: the sample list after the visit's own `append`. -/
def emit (s : Stack) (count : Int) (out : List Sample) : List Sample :=
  if count > 0 then out ++ [{ Frames := s.stack, Count := count }] else out

/-- The `for` loop of lines 187-199 over the outgoing edges, with the recursive
call passed as `visit`. -/
def forOut (visit : Stack → NodeId → List Sample → Outcome) (g : Graph) (s : Stack) :
    List NodeId → List Sample → Outcome
  | [], out => Outcome.ok out
  | callee :: rest, out =>
    match NewFunc (g.node callee) with
    | none => Outcome.crash
    | some fn =>
      if fn.Name = "init" ∧ fn.Receiver = "" then forOut visit g s rest out
      else if fn ∈ s.seen then forOut visit g s rest out
      else
        let ns := s.Add fn
        match visit ns callee out with
        | Outcome.ok out => forOut visit g s rest out
        | Outcome.crash => Outcome.crash
        | Outcome.outOfFuel => Outcome.outOfFuel

/-- The function `createStaticProfile`; `out` is the list behind the pointer
parameter and the result is the list after the call. -/
def createStaticProfile : Nat → Graph → Stack → NodeId → List Sample → Outcome
  | 0, _, _, _, _ => Outcome.outOfFuel
  | fuel + 1, g, s, n, out =>
    match weigh s (g.node n) with
    | none => Outcome.crash
    | some count =>
      let out := emit s count out
      if s.stack.length ≥ 8 then Outcome.ok out
      else forOut (createStaticProfile fuel g) g s (g.node n).Out out

/-- Lines 78-82 of `run`: the walk from the root with a fresh stack and an
empty sample list. -/
def runWalk (fuel : Nat) (g : Graph) : Outcome :=
  createStaticProfile fuel g NewStack g.Root []

/-! ## Derived notions used by the statements -/

/-- The body size of a node as line 173 and the conversion of line 174 compute
it, `int64(syn.End() - syn.Pos())`, taken as 0 when the function has no
syntax. -/
def bodySize (n : Node) : Int :=
  match n.Fn.Syn with
  | some syn => int64 (syn.End - syn.Pos)
  | none => 0

/-- The test of line 189: the identity is the plain function `init`. -/
def isInit (fn : Func) : Prop := fn.Name = "init" ∧ fn.Receiver = ""

instance (fn : Func) : Decidable (isInit fn) := by
  unfold isInit; infer_instance

/-- The samples a single visit of `(s, n)` appends itself (lines 171-181). -/
def own (g : Graph) (s : Stack) (n : NodeId) : List Sample :=
  match weigh s (g.node n) with
  | some count => emit s count []
  | none => []

/-- The loop of lines 187-199, recording the calls instead of the samples: the
calls made below each edge that is followed, and whether the loop ran to its
end. -/
def forOutVisits (visit : Stack → NodeId → List (Stack × NodeId) × Bool) (g : Graph)
    (s : Stack) : List NodeId → List (Stack × NodeId) × Bool
  | [] => ([], true)
  | callee :: rest =>
    match NewFunc (g.node callee) with
    | none => ([], false)
    | some fn =>
      if fn.Name = "init" ∧ fn.Receiver = "" then forOutVisits visit g s rest
      else if fn ∈ s.seen then forOutVisits visit g s rest
      else
        let ns := s.Add fn
        let below := visit ns callee
        if below.2 then
          let after := forOutVisits visit g s rest
          (below.1 ++ after.1, after.2)
        else (below.1, false)

/-- The arguments `(s, n)` of every call of `createStaticProfile` made by the
call on `(s, n)`, itself included, in the order the calls are entered, and
whether the call returned normally. -/
def visits : Nat → Graph → Stack → NodeId → List (Stack × NodeId) × Bool
  | 0, _, _, _ => ([], false)
  | fuel + 1, g, s, n =>
    match weigh s (g.node n) with
    | none => ([(s, n)], false)
    | some _ =>
      if s.stack.length ≥ 8 then ([(s, n)], true)
      else
        let below := forOutVisits (visits fuel g) g s (g.node n).Out
        ((s, n) :: below.1, below.2)

/-- The samples appended by the visits of a sequence of calls, in order. -/
def samplesOf (g : Graph) (t : List (Stack × NodeId)) : List Sample :=
  t.flatMap (fun p => own g p.1 p.2)

/-- The membership map of a path holds exactly the frames of the path, and no
frame occurs twice. -/
def Tracked (s : Stack) : Prop := s.stack.Nodup ∧ ∀ f, f ∈ s.seen ↔ f ∈ s.stack

/-! ## Example call graphs -/

/-- A node of package `main` without receiver. -/
def plainNode (name : String) (syn : Option AstNode) (out : List NodeId) : Node :=
  { Fn := { Name := name, Pkg := some "main", Recv := none, Syn := syn }, Out := out }

/-- The synthetic root of a call graph: no package, no receiver, no syntax. -/
def rootNode (out : List NodeId) : Node :=
  { Fn := { Name := "<root>", Pkg := none, Recv := none, Syn := none }, Out := out }

/-- The graph `root -> A`, `A -> A`, `A -> B` with body sizes 40 for `A` and
unavailable for `root` and `B`; `B` has no outgoing edges. -/
def recursiveGraph : Graph :=
  { node := fun i =>
      match i with
      | 0 => rootNode [1]
      | 1 => plainNode "A" (some { Pos := 1, End := 41 }) [1, 2]
      | _ => plainNode "B" none []
    Root := 0 }

/-- The identity of node `A` of `recursiveGraph`. -/
def funcA : Func := { PkgPath := "main", Receiver := "", Name := "A" }

/-- The identity of node `B` of `recursiveGraph`. -/
def funcB : Func := { PkgPath := "main", Receiver := "", Name := "B" }

/-- A chain `root -> f -> ff -> fff -> ...` of eleven functions below the root,
each with a body of size 80 and one call to the next; the last one calls
nothing. Node `i` is named by `i` letters. -/
def chainGraph : Graph :=
  { node := fun i =>
      match i with
      | 0 => rootNode [1]
      | i + 1 =>
        plainNode (String.mk (List.replicate (i + 1) 'f')) (some { Pos := 1, End := 81 })
          (if i + 1 < 11 then [i + 2] else [])
    Root := 0 }

/-- A graph whose root has no syntax and no outgoing edges. -/
def leafRootGraph : Graph :=
  { node := fun _ => rootNode []
    Root := 0 }

/-- The root calls the function `init` of package `main` (node 1) and the
method `init` of the type `T` (node 2); each of them calls `work` (node 3). -/
def initGraph : Graph :=
  { node := fun i =>
      match i with
      | 0 => rootNode [1, 2]
      | 1 => plainNode "init" (some { Pos := 1, End := 11 }) [3]
      | 2 => { Fn := { Name := "init", Pkg := some "main", Recv := some (RecvType.named "T"),
                       Syn := some { Pos := 1, End := 11 } },
               Out := [3] }
      | _ => plainNode "work" none []
    Root := 0 }

/-- The identity of the method `init` of `initGraph`. -/
def funcInitMethod : Func := { PkgPath := "main", Receiver := "T", Name := "init" }

/-- The identity of the function `work` of `initGraph`. -/
def funcWork : Func := { PkgPath := "main", Receiver := "", Name := "work" }

/-- The graph `recursiveGraph` with an ordinary function of empty body (size 0
with syntax) as root. -/
def emptyBodyRecursiveGraph : Graph :=
  { node := fun i =>
      match i with
      | 0 => plainNode "main" (some { Pos := 1, End := 1 }) [1]
      | 1 => plainNode "A" (some { Pos := 1, End := 41 }) [1, 2]
      | _ => plainNode "B" none []
    Root := 0 }

/-! ## Rendering an identity -/

/-- The method `Func.String`: `s` starts empty and receives the package path
with a dot, the receiver in parentheses with a dot, and the name. -/
def Func.String (f : Func) :=
  let s := ""
  let s := if f.PkgPath ≠ "" then s ++ (f.PkgPath ++ ".") else s
  let s := if f.Receiver ≠ "" then s ++ ("(" ++ f.Receiver ++ ").") else s
  s ++ f.Name

/-- The characters `Func.String` writes for the package path. -/
def pkgPart (path : String) : List Char :=
  if path = "" then [] else path.data ++ ['.']

/-- The characters `Func.String` writes for the receiver. -/
def recvPart (recv : String) : List Char :=
  if recv = "" then [] else '(' :: recv.data ++ [')', '.']

/-- The characters `Func.String` puts before the name. -/
def qualifier (f : Func) : List Char :=
  pkgPart f.PkgPath ++ recvPart f.Receiver

/-- The identity has the shape of one built from Go identifiers and a package
path: no dot in the name, no opening parenthesis in the receiver, no closing
parenthesis in the package path. -/
def Func.Plain (f : Func) : Prop :=
  '.' ∉ f.Name.data ∧ '(' ∉ f.Receiver.data ∧ ')' ∉ f.PkgPath.data

/-! ## The path tracker in memory -/

/-- The memory the stacks live in: the backing arrays of the slices and the
maps, each found by its address (its position). -/
structure Memory where
  arrays : List (List Func)
  maps : List (Finset Func)

/-- The fields of a `Stack` as stored: the slice header of `stack` (the address
of its backing array, absent for the nil slice, and its length) and the
address of the map `seen`. -/
structure StackRef where
  array : Option Nat
  len : Nat
  seen : Nat

/-- The stack a reference denotes in a memory. -/
def Memory.load (m : Memory) (r : StackRef) : Stack :=
  { stack :=
      match r.array with
      | none => []
      | some a => (m.arrays.getD a []).take r.len
    seen := m.maps.getD r.seen ∅ }

/-- The reference is to objects that exist in the memory, and its length is
within the backing array. -/
def Memory.Holds (m : Memory) (r : StackRef) : Prop :=
  r.seen < m.maps.length ∧
    match r.array with
    | none => r.len = 0
    | some a => a < m.arrays.length ∧ r.len ≤ (m.arrays.getD a []).length

/-- The method `Stack.Add` on memory: the map literal and `make` allocate a new
map and a new backing array, the two loops and the assignment write to these
new objects only, and the result refers to them. -/
def AddMem (m : Memory) (r : StackRef) (fn : Func) : Memory × StackRef :=
  let s := m.load r
  let seen : Finset Func := Multiset.foldr insert {fn} s.seen.val
  let stack := List.replicate (s.stack.length + 1) (default : Func)
  let stack := copy stack s.stack
  let stack := stack.set (stack.length - 1) fn
  ({ arrays := m.arrays ++ [stack], maps := m.maps ++ [seen] },
    { array := some m.arrays.length, len := stack.length, seen := m.maps.length })

/-! ## The profile document -/

/-- The part of `profile.Mapping` that `run` sets. -/
structure ProfileMapping where
  ID : Nat
  HasFunctions : Bool
deriving DecidableEq, Repr

/-- The struct `profile.ValueType`: the fields `Type` and `Unit`. -/
structure ValueType where
  Kind : String
  Unit : String
deriving DecidableEq, Repr

/-- The part of `profile.Function` that `run` sets; `ID` is a `uint64`. -/
structure ProfileFunction where
  ID : Nat
  Name : String
  Filename : String
deriving DecidableEq, Repr

/-- The struct `profile.Line`; the pointer `Function` is the record it points
to. -/
structure ProfileLine where
  Function : ProfileFunction
  Line : Int
deriving DecidableEq, Repr

/-- The part of `profile.Location` that `run` sets; the pointer `Mapping` is
the record it points to. -/
structure ProfileLocation where
  ID : Nat
  Mapping : ProfileMapping
  Line : List ProfileLine
deriving DecidableEq, Repr

/-- The part of `profile.Sample` that `run` sets; the pointers of `Location`
are the records they point to. -/
structure ProfileSample where
  Location : List ProfileLocation
  Value : List Int
deriving DecidableEq, Repr

/-- The part of `profile.Profile` that `run` sets. -/
structure Profile where
  SampleType : List ValueType
  Sample : List ProfileSample
  Mapping : List ProfileMapping
  Location : List ProfileLocation
  Function : List ProfileFunction
  TimeNanos : Int
deriving DecidableEq, Repr

/-- Wrap a natural number to the range of `uint64`. -/
def uint64 (x : Nat) : Nat := x % 2 ^ 64

/-- The variables of `run` that the encoding loops update. -/
structure Encoder where
  functionID : Nat
  locationID : Nat
  p : Profile

/-- Lines 106-126 of `run`, the body of the inner loop for the frame `f`: a
new function record and a new location record are appended to the profile, the
two counters are incremented and the location is appended to the sample. -/
def addFrame (m : ProfileMapping) (f : Func) (st : Encoder × ProfileSample) :
    Encoder × ProfileSample :=
  let e := st.1
  let sample := st.2
  let function : ProfileFunction :=
    { ID := e.functionID, Name := f.String, Filename := "main.go" }
  let p : Profile := { e.p with Function := e.p.Function ++ [function] }
  let functionID := uint64 (e.functionID + 1)
  let location : ProfileLocation :=
    { ID := e.locationID, Mapping := m, Line := [{ Function := function, Line := 1 }] }
  let p : Profile := { p with Location := p.Location ++ [location] }
  let locationID := uint64 (e.locationID + 1)
  let sample : ProfileSample := { sample with Location := sample.Location ++ [location] }
  ({ functionID := functionID, locationID := locationID, p := p }, sample)

/-- The inner loop of lines 105-127, `for i := len(s.Frames) - 1; i >= 0; i--`;
the counter of the recursion is `i + 1`. -/
def frameLoop (m : ProfileMapping) (frames : List Func) :
    Nat → Encoder × ProfileSample → Encoder × ProfileSample
  | 0, st => st
  | i + 1, st => frameLoop m frames i (addFrame m (frames.getD i default) st)

/-- The outer loop of lines 100-130 over the samples. -/
def sampleLoop (m : ProfileMapping) : List Sample → Encoder → Encoder
  | [], e => e
  | s :: rest, e =>
    let sample : ProfileSample := { Value := [s.Count], Location := [] }
    let st := frameLoop m s.Frames s.Frames.length (e, sample)
    let e : Encoder := { st.1 with p := { st.1.p with Sample := st.1.p.Sample ++ [st.2] } }
    sampleLoop m rest e

/-- Lines 85-130 of `run`: the profile document built from the samples; `now`
is the value of `time.Now().UnixNano()`. -/
def encode (now : Int) (samples : List Sample) : Profile :=
  let functionID := uint64 1
  let locationID := uint64 1
  let p : Profile :=
    { SampleType := [], Sample := [], Mapping := [], Location := [], Function := [],
      TimeNanos := now }
  let m : ProfileMapping := { ID := 1, HasFunctions := true }
  let p : Profile := { p with Mapping := [m] }
  let p : Profile := { p with SampleType := [{ Kind := "calls", Unit := "count" }] }
  (sampleLoop m samples { functionID := functionID, locationID := locationID, p := p }).p

/-- Modelled from the spec: the method `CheckValid` of the profile library,
which is not part of the sources. The document is structurally valid when
every sample has as many values as there are sample types and refers to
locations of the location list, every location refers to a mapping of the
mapping list and to functions of the function list, and the IDs of the
mappings, of the functions and of the locations are non-zero and pairwise
distinct. -/
def CheckValid (p : Profile) : Bool :=
  decide
    ((∀ smp ∈ p.Sample, smp.Value.length = p.SampleType.length ∧
        ∀ loc ∈ smp.Location, loc ∈ p.Location) ∧
      (∀ loc ∈ p.Location, loc.Mapping ∈ p.Mapping ∧
        ∀ ln ∈ loc.Line, ln.Function ∈ p.Function) ∧
      (p.Mapping.map (fun m => m.ID)).Nodup ∧ 0 ∉ p.Mapping.map (fun m => m.ID) ∧
      (p.Function.map (fun f => f.ID)).Nodup ∧ 0 ∉ p.Function.map (fun f => f.ID) ∧
      (p.Location.map (fun l => l.ID)).Nodup ∧ 0 ∉ p.Location.map (fun l => l.ID))

/-- The number of frames of a list of samples: the sum of `len(Frames)`. -/
def totalFrames (samples : List Sample) : Nat :=
  (samples.map (fun s => s.Frames.length)).sum

/-- The frames of a list of samples in the order the loops visit them: sample
by sample, each from its last frame to its first. -/
def frameSeq (samples : List Sample) : List Func :=
  samples.flatMap (fun s => s.Frames.reverse)

/-- The two samples of the walk of `recursiveGraph`. -/
def recursiveSamples : List Sample :=
  [{ Frames := [funcA], Count := 40 }, { Frames := [funcA, funcB], Count := 1 }]

/-- The function records the loops append for the frames `fs`, visited in this
order, when the counter stands at `c` (before wrapping). -/
def functionsFrom (c : Nat) : List Func → List ProfileFunction
  | [] => []
  | f :: fs => { ID := uint64 c, Name := f.String, Filename := "main.go" }
      :: functionsFrom (c + 1) fs

/-- The location records the loops append for the frames `fs`, visited in this
order, when the counter stands at `c` (before wrapping). -/
def locationsFrom (m : ProfileMapping) (c : Nat) : List Func → List ProfileLocation
  | [] => []
  | f :: fs =>
    { ID := uint64 c, Mapping := m,
      Line := [{ Function := { ID := uint64 c, Name := f.String, Filename := "main.go" },
                 Line := 1 }] }
      :: locationsFrom m (c + 1) fs

/-- The sample records the outer loop appends when the counter stands at `c`
(before wrapping). -/
def samplesFrom (m : ProfileMapping) (c : Nat) : List Sample → List ProfileSample
  | [] => []
  | s :: rest =>
    { Location := locationsFrom m c s.Frames.reverse, Value := [s.Count] }
      :: samplesFrom m (c + s.Frames.length) rest

/-! ## Writing the document -/

/-- The files `run` can touch: the content of each path, absent when there is
no file. -/
structure FileSystem where
  files : String → Option (List Nat)

/-- What the operating system and the profile library decide: whether
`os.Create` succeeds on a path, which bytes `p.Write` puts into the file and
whether it reports success. -/
structure OutputEnv where
  canCreate : String → Bool
  written : Profile → List Nat
  writeOk : Profile → Bool

/-- The errors `run` returns from lines 132-141. -/
inductive RunError where
  | create
  | invalid
  | write
deriving DecidableEq, Repr

/-- The function `os.Create` when it succeeds: the file exists afterwards and
is empty, whether or not it existed before. -/
def osCreate (fs : FileSystem) (name : String) : FileSystem :=
  { files := fun n => if n = name then some [] else fs.files n }

/-- Lines 132-142 of `run` for the document `p` and the destination `dest`:
the file system afterwards and the error returned, `none` for `nil`. -/
def writeOutput (env : OutputEnv) (fs : FileSystem) (dest : String) (p : Profile) :
    FileSystem × Option RunError :=
  if env.canCreate dest = false then (fs, some RunError.create)
  else
    let fs := osCreate fs dest
    if CheckValid p = false then (fs, some RunError.invalid)
    else
      let fs : FileSystem :=
        { files := fun n => if n = dest then some (env.written p) else fs.files n }
      if env.writeOk p = false then (fs, some RunError.write)
      else (fs, none)

/-- Lines 85-142 of `run`: the samples are encoded and the document is
written. -/
def runOutput (env : OutputEnv) (fs : FileSystem) (dest : String) (now : Int)
    (samples : List Sample) : FileSystem × Option RunError :=
  writeOutput env fs dest (encode now samples)

/-- The calls lines 132-142 of `run` make on the destination and the
document: `os.Create`, `p.CheckValid` with its verdict, `p.Write` with its
success. -/
inductive OutputEvent where
  | created (dest : String)
  | validated (ok : Bool)
  | written (dest : String) (ok : Bool)
deriving DecidableEq, Repr

/-- Lines 132-142 of `run` call by call: each call `run` makes, in order, with
the file system as it is when the call has returned. A failed `os.Create`
makes `run` return before any of them. -/
def outputSteps (env : OutputEnv) (fs : FileSystem) (dest : String) (p : Profile) :
    List (OutputEvent × FileSystem) :=
  if env.canCreate dest = false then []
  else
    let fs := osCreate fs dest
    (OutputEvent.created dest, fs) :: (OutputEvent.validated (CheckValid p), fs) ::
      (if CheckValid p = false then []
       else
        [(OutputEvent.written dest (env.writeOk p),
          { files := fun n => if n = dest then some (env.written p) else fs.files n })])

/-- An environment in which every file can be created and written. -/
def plainEnv : OutputEnv :=
  { canCreate := fun _ => true, written := fun _ => [1, 2, 3], writeOk := fun _ => true }

/-- A file system whose only file is `out.pprof`, two bytes long. -/
def oneFile : FileSystem :=
  { files := fun n => if n = "out.pprof" then some [7, 7] else none }

/-! ## The walk as the specification words it -/

/-- Whether the loop follows the edge to `callee` from the path `s`: the path
is below the ceiling, the callee is not the plain `init`, and it is not on the
path. -/
def eligible (g : Graph) (s : Stack) (callee : NodeId) : Bool :=
  match NewFunc (g.node callee) with
  | none => false
  | some fn => decide (s.stack.length < 8 ∧ ¬ isInit fn ∧ fn ∉ s.seen)

/-- The list produced for `(s, n)` in the words of the specification: the own
sample of `n`, if any, followed by the concatenation, over the eligible
outgoing edges of `n` in graph order, of the lists produced for the extended
path and the callee. -/
def produced : Nat → Graph → Stack → NodeId → List Sample
  | 0, _, _, _ => []
  | fuel + 1, g, s, n =>
    own g s n ++ ((g.node n).Out.filter (eligible g s)).flatMap
      (fun callee =>
        match NewFunc (g.node callee) with
        | none => []
        | some fn => produced fuel g (s.Add fn) callee)

/-- The identities of the nodes of a chain, as `NewFunc` yields them. -/
def framesOf (g : Graph) (nodes : List NodeId) : List (Option Func) :=
  nodes.map (fun c => NewFunc (g.node c))

/-- The number of chains of edges that start at `n`, pass through nodes with
the identities `fs` in this order, and end in a node whose count, weighed at
the path extended by `fs`, is `w`; `s` is the path of `n`. -/
def chainCount (g : Graph) (w : Int) : Stack → NodeId → List Func → Nat
  | s, n, [] => if weigh s (g.node n) = some w then 1 else 0
  | s, n, f :: fs =>
    (((g.node n).Out.filter (fun c => decide (NewFunc (g.node c) = some f))).map
      (fun c => chainCount g w (s.Add f) c fs)).sum

/-- The diamond `root -> A -> C`, `root -> B -> C`: `A` and `B` have bodies of
size 10 and `C` has no syntax and calls nothing. -/
def diamondGraph : Graph :=
  { node := fun i =>
      match i with
      | 0 => rootNode [1, 2]
      | 1 => plainNode "A" (some { Pos := 1, End := 11 }) [3]
      | 2 => plainNode "B" (some { Pos := 1, End := 11 }) [3]
      | _ => plainNode "C" none []
    Root := 0 }

/-- The identity of node `C` of `diamondGraph`. -/
def funcC : Func := { PkgPath := "main", Receiver := "", Name := "C" }

/-- A memory with one backing array and one map, both holding `A`. -/
def oneStackMemory : Memory := { arrays := [[funcA]], maps := [{funcA}] }

/-- The reference to the stack `[A]` in `oneStackMemory`. -/
def oneStackRef : StackRef := { array := some 0, len := 1, seen := 0 }

/-- The root calls the leaf `A`, whose body spans the positions 0 to
`2 ^ 63 - 1`: its size is the largest `int64`. -/
def hugeLeafGraph : Graph :=
  { node := fun i =>
      match i with
      | 0 => rootNode [1]
      | _ => plainNode "A" (some { Pos := 0, End := 2 ^ 63 - 1 }) []
    Root := 0 }

/-- The root calls the function `A` (body size 40, no calls) and then a method
`m` whose receiver is a pointer to a type that is not a `*types.Named`. -/
def unnamedReceiverGraph : Graph :=
  { node := fun i =>
      match i with
      | 0 => rootNode [1, 2]
      | 1 => plainNode "A" (some { Pos := 1, End := 41 }) []
      | _ => { Fn := { Name := "m", Pkg := some "main", Recv := some RecvType.pointerToOther,
                       Syn := none },
               Out := [] }
    Root := 0 }

/-! ## The path tracker -/

theorem copy_replicate (l : List Func) (d : Func) :
    copy (List.replicate (l.length + 1) d) l = l ++ [d] := by
  simp [copy, List.take_of_length_le]

theorem Stack.Add_stack (s : Stack) (fn : Func) : (s.Add fn).stack = s.stack ++ [fn] := by
  simp [Stack.Add, copy_replicate]

theorem foldr_insert_eq (m : Multiset Func) (t : Finset Func) (x : Func) :
    x ∈ Multiset.foldr insert t m ↔ x ∈ m ∨ x ∈ t := by
  induction m using Multiset.induction_on with
  | empty => simp
  | cons a m ih => simp [ih, or_assoc]

theorem Stack.mem_Add_seen (s : Stack) (fn x : Func) :
    x ∈ (s.Add fn).seen ↔ x = fn ∨ x ∈ s.seen := by
  simp [Stack.Add, foldr_insert_eq, or_comm]

theorem Stack.Add_length (s : Stack) (fn : Func) :
    (s.Add fn).stack.length = s.stack.length + 1 := by
  simp [Stack.Add_stack]

/-! ## Weighing -/

theorem int64_eq_self (x : Int) (h0 : -2 ^ 63 ≤ x) (h1 : x < 2 ^ 63) : int64 x = x := by
  unfold int64
  omega

theorem selfWeight_of_noSyn (s : Stack) (n : Node) (h : n.Fn.Syn = none) :
    selfWeight s n = some 0 := by
  simp [selfWeight, h]

theorem selfWeight_of_empty (s : Stack) (n : Node) (syn : AstNode) (h : n.Fn.Syn = some syn)
    (hs : s.stack.length = 0) : selfWeight s n = none := by
  simp [selfWeight, h, hs]

theorem int64_range (x : Int) : -2 ^ 63 ≤ int64 x ∧ int64 x < 2 ^ 63 := by
  unfold int64
  omega

theorem bodySize_lt (n : Node) : bodySize n < 2 ^ 63 := by
  unfold bodySize
  cases n.Fn.Syn with
  | none => norm_num
  | some syn => exact (int64_range _).2

theorem selfWeight_of_pos (s : Stack) (n : Node) (hL : 1 ≤ s.stack.length)
    (h0 : 0 ≤ bodySize n) :
    selfWeight s n = some (bodySize n / (s.stack.length : Int)) := by
  have hLz : (0 : Int) < (s.stack.length : Int) := by exact_mod_cast hL
  have h1 := bodySize_lt n
  cases hsyn : n.Fn.Syn with
  | none => simp [selfWeight, bodySize, hsyn]
  | some syn =>
    have hb : bodySize n = int64 (syn.End - syn.Pos) := by simp [bodySize, hsyn]
    rw [hb] at h0 h1 ⊢
    have hd : Int.tdiv (int64 (syn.End - syn.Pos)) (s.stack.length : Int)
        = int64 (syn.End - syn.Pos) / (s.stack.length : Int) :=
      Int.tdiv_eq_ediv h0 (le_of_lt hLz)
    have hq0 : 0 ≤ int64 (syn.End - syn.Pos) / (s.stack.length : Int) :=
      Int.ediv_nonneg h0 (le_of_lt hLz)
    have hq1 : int64 (syn.End - syn.Pos) / (s.stack.length : Int)
        ≤ int64 (syn.End - syn.Pos) := Int.ediv_le_self _ h0
    have hq : int64 (int64 (syn.End - syn.Pos) / (s.stack.length : Int))
        = int64 (syn.End - syn.Pos) / (s.stack.length : Int) :=
      int64_eq_self _ (by omega) (by omega)
    have hne : ¬ ((s.stack.length : Int) = 0) := by omega
    simp only [selfWeight, hsyn, hd, hq, zero_add, if_neg hne]

theorem selfWeight_ne_none (s : Stack) (n : Node) (h : 1 ≤ s.stack.length ∨ n.Fn.Syn = none) :
    selfWeight s n ≠ none := by
  cases hsyn : n.Fn.Syn with
  | none => simp [selfWeight, hsyn]
  | some syn =>
    rcases h with h | h
    · have hne : ¬ ((s.stack.length : Int) = 0) := by omega
      simp [selfWeight, hsyn, hne]
    · rw [hsyn] at h; cases h

theorem weigh_ne_none (s : Stack) (n : Node) (h : 1 ≤ s.stack.length ∨ n.Fn.Syn = none) :
    weigh s n ≠ none := by
  have := selfWeight_ne_none s n h
  unfold weigh
  cases hw : selfWeight s n with
  | none => exact absurd hw this
  | some c => by_cases ho : n.Out.length = 0 <;> simp [ho]

/-- The count at a non-empty path when the addition of line 177 stays within
`int64`. -/
theorem weigh_of_pos (s : Stack) (n : Node) (hL : 1 ≤ s.stack.length)
    (h0 : 0 ≤ bodySize n)
    (h1 : bodySize n / (s.stack.length : Int) + (if n.Out = [] then 1 else 0) < 2 ^ 63) :
    weigh s n = some (bodySize n / (s.stack.length : Int) + (if n.Out = [] then 1 else 0)) := by
  have hLz : (0 : Int) < (s.stack.length : Int) := by exact_mod_cast hL
  have hq0 : 0 ≤ bodySize n / (s.stack.length : Int) := Int.ediv_nonneg h0 (le_of_lt hLz)
  unfold weigh
  rw [selfWeight_of_pos s n hL h0]
  by_cases ho : n.Out = []
  · simp only [ho, if_true] at h1
    have : int64 (bodySize n / (s.stack.length : Int) + 1)
        = bodySize n / (s.stack.length : Int) + 1 := int64_eq_self _ (by omega) h1
    simp [ho, this]
  · have hlen : ¬ (n.Out.length = 0) := by simpa using ho
    simp [ho, hlen]

theorem weigh_of_noSyn (s : Stack) (n : Node) (h : n.Fn.Syn = none) :
    weigh s n = some (if n.Out = [] then 1 else 0) := by
  unfold weigh
  rw [selfWeight_of_noSyn s n h]
  by_cases ho : n.Out = []
  · simp [ho, int64]
  · have hlen : ¬ (n.Out.length = 0) := by simpa using ho
    simp [ho, hlen]

theorem weigh_of_empty (s : Stack) (n : Node) (syn : AstNode) (h : n.Fn.Syn = some syn)
    (hs : s.stack.length = 0) : weigh s n = none := by
  simp [weigh, selfWeight_of_empty s n syn h hs]

/-! ## Unfolding the walk -/

theorem emit_eq (s : Stack) (count : Int) (out : List Sample) :
    emit s count out = out ++ emit s count [] := by
  unfold emit
  by_cases h : count > 0 <;> simp [h]

theorem createStaticProfile_succ (fuel : Nat) (g : Graph) (s : Stack) (n : NodeId)
    (out : List Sample) :
    createStaticProfile (fuel + 1) g s n out =
      match weigh s (g.node n) with
      | none => Outcome.crash
      | some count =>
        if s.stack.length ≥ 8 then Outcome.ok (emit s count out)
        else forOut (createStaticProfile fuel g) g s (g.node n).Out (emit s count out) := rfl

theorem forOut_panic (visit : Stack → NodeId → List Sample → Outcome) (g : Graph)
    (s : Stack) (callee : NodeId) (rest : List NodeId) (out : List Sample)
    (hfn : NewFunc (g.node callee) = none) :
    forOut visit g s (callee :: rest) out = Outcome.crash := by
  simp [forOut, hfn]

theorem forOut_skip_init (visit : Stack → NodeId → List Sample → Outcome) (g : Graph)
    (s : Stack) (callee : NodeId) (rest : List NodeId) (out : List Sample) (fn : Func)
    (hfn : NewFunc (g.node callee) = some fn) (h : isInit fn) :
    forOut visit g s (callee :: rest) out = forOut visit g s rest out := by
  unfold isInit at h
  simp [forOut, hfn, h]

theorem forOut_skip_seen (visit : Stack → NodeId → List Sample → Outcome) (g : Graph)
    (s : Stack) (callee : NodeId) (rest : List NodeId) (out : List Sample) (fn : Func)
    (hfn : NewFunc (g.node callee) = some fn) (h : fn ∈ s.seen) :
    forOut visit g s (callee :: rest) out = forOut visit g s rest out := by
  by_cases hi : fn.Name = "init" ∧ fn.Receiver = ""
  · simp [forOut, hfn, hi]
  · simp [forOut, hfn, hi, h]

theorem forOut_descend (visit : Stack → NodeId → List Sample → Outcome) (g : Graph)
    (s : Stack) (callee : NodeId) (rest : List NodeId) (out : List Sample) (fn : Func)
    (hfn : NewFunc (g.node callee) = some fn) (hi : ¬ isInit fn) (h : fn ∉ s.seen) :
    forOut visit g s (callee :: rest) out =
      match visit (s.Add fn) callee out with
      | Outcome.ok out => forOut visit g s rest out
      | Outcome.crash => Outcome.crash
      | Outcome.outOfFuel => Outcome.outOfFuel := by
  unfold isInit at hi
  simp [forOut, hfn, hi, h]

theorem forOutVisits_panic (visit : Stack → NodeId → List (Stack × NodeId) × Bool)
    (g : Graph) (s : Stack) (callee : NodeId) (rest : List NodeId)
    (hfn : NewFunc (g.node callee) = none) :
    forOutVisits visit g s (callee :: rest) = ([], false) := by
  simp [forOutVisits, hfn]

theorem forOutVisits_skip_init (visit : Stack → NodeId → List (Stack × NodeId) × Bool)
    (g : Graph) (s : Stack) (callee : NodeId) (rest : List NodeId) (fn : Func)
    (hfn : NewFunc (g.node callee) = some fn) (h : isInit fn) :
    forOutVisits visit g s (callee :: rest) = forOutVisits visit g s rest := by
  unfold isInit at h
  simp [forOutVisits, hfn, h]

theorem forOutVisits_skip_seen (visit : Stack → NodeId → List (Stack × NodeId) × Bool)
    (g : Graph) (s : Stack) (callee : NodeId) (rest : List NodeId) (fn : Func)
    (hfn : NewFunc (g.node callee) = some fn) (h : fn ∈ s.seen) :
    forOutVisits visit g s (callee :: rest) = forOutVisits visit g s rest := by
  by_cases hi : fn.Name = "init" ∧ fn.Receiver = ""
  · simp [forOutVisits, hfn, hi]
  · simp [forOutVisits, hfn, hi, h]

theorem forOutVisits_descend (visit : Stack → NodeId → List (Stack × NodeId) × Bool)
    (g : Graph) (s : Stack) (callee : NodeId) (rest : List NodeId) (fn : Func)
    (hfn : NewFunc (g.node callee) = some fn) (hi : ¬ isInit fn) (h : fn ∉ s.seen) :
    forOutVisits visit g s (callee :: rest) =
      if (visit (s.Add fn) callee).2 then
        ((visit (s.Add fn) callee).1 ++ (forOutVisits visit g s rest).1,
          (forOutVisits visit g s rest).2)
      else ((visit (s.Add fn) callee).1, false) := by
  unfold isInit at hi
  simp [forOutVisits, hfn, hi, h]

theorem visits_succ (fuel : Nat) (g : Graph) (s : Stack) (n : NodeId) :
    visits (fuel + 1) g s n =
      match weigh s (g.node n) with
      | none => ([(s, n)], false)
      | some _ =>
        if s.stack.length ≥ 8 then ([(s, n)], true)
        else ((s, n) :: (forOutVisits (visits fuel g) g s (g.node n).Out).1,
          (forOutVisits (visits fuel g) g s (g.node n).Out).2) := rfl

/-- Case analysis on one edge of the loop: `NewFunc` panics, or the edge is
skipped as `init`, skipped as already on the path, or followed. -/
theorem edge_cases (g : Graph) (s : Stack) (callee : NodeId) :
    NewFunc (g.node callee) = none ∨
      ∃ fn, NewFunc (g.node callee) = some fn ∧
        (isInit fn ∨ fn ∈ s.seen ∨ (¬ isInit fn ∧ fn ∉ s.seen)) := by
  cases hfn : NewFunc (g.node callee) with
  | none => exact Or.inl rfl
  | some fn =>
    refine Or.inr ⟨fn, rfl, ?_⟩
    by_cases hi : isInit fn
    · exact Or.inl hi
    · by_cases hs : fn ∈ s.seen
      · exact Or.inr (Or.inl hs)
      · exact Or.inr (Or.inr ⟨hi, hs⟩)

/-! ## The samples of a walk are the samples of its visits -/

theorem forOut_link (g : Graph) (s : Stack)
    (visit : Stack → NodeId → List Sample → Outcome)
    (tr : Stack → NodeId → List (Stack × NodeId) × Bool)
    (h : ∀ s' n' o o', visit s' n' o = Outcome.ok o' →
      (tr s' n').2 = true ∧ o' = o ++ samplesOf g (tr s' n').1) :
    ∀ (edges : List NodeId) (out out' : List Sample),
      forOut visit g s edges out = Outcome.ok out' →
      (forOutVisits tr g s edges).2 = true ∧
        out' = out ++ samplesOf g (forOutVisits tr g s edges).1 := by
  intro edges
  induction edges with
  | nil =>
    intro out out' hw
    simp only [forOut, Outcome.ok.injEq] at hw
    simp [forOutVisits, samplesOf, hw]
  | cons callee rest ih =>
    intro out out' hw
    rcases edge_cases g s callee with hn | ⟨fn, hfn, hi | hs | ⟨hi, hs⟩⟩
    · rw [forOut_panic visit g s callee rest out hn] at hw
      cases hw
    · rw [forOut_skip_init visit g s callee rest out fn hfn hi] at hw
      rw [forOutVisits_skip_init tr g s callee rest fn hfn hi]
      exact ih out out' hw
    · rw [forOut_skip_seen visit g s callee rest out fn hfn hs] at hw
      rw [forOutVisits_skip_seen tr g s callee rest fn hfn hs]
      exact ih out out' hw
    · rw [forOut_descend visit g s callee rest out fn hfn hi hs] at hw
      rw [forOutVisits_descend tr g s callee rest fn hfn hi hs]
      cases hv : visit (s.Add fn) callee out with
      | ok o1 =>
        rw [hv] at hw
        obtain ⟨ht, ho1⟩ := h _ _ _ _ hv
        obtain ⟨hr, ho'⟩ := ih o1 out' hw
        rw [ht]
        refine ⟨hr, ?_⟩
        simp only [if_true]
        rw [ho', ho1]
        simp [samplesOf, List.flatMap_append]
      | crash => rw [hv] at hw; cases hw
      | outOfFuel => rw [hv] at hw; cases hw

theorem walk_link (g : Graph) :
    ∀ (fuel : Nat) (s : Stack) (n : NodeId) (out out' : List Sample),
      createStaticProfile fuel g s n out = Outcome.ok out' →
      (visits fuel g s n).2 = true ∧ out' = out ++ samplesOf g (visits fuel g s n).1 := by
  intro fuel
  induction fuel with
  | zero => intro s n out out' hw; cases hw
  | succ fuel ih =>
    intro s n out out' hw
    rw [createStaticProfile_succ] at hw
    rw [visits_succ]
    cases hc : weigh s (g.node n) with
    | none => rw [hc] at hw; cases hw
    | some c =>
      rw [hc] at hw
      have hown : samplesOf g [(s, n)] = emit s c [] := by
        simp [samplesOf, own, hc]
      by_cases h8 : s.stack.length ≥ 8
      · simp only [h8, if_true, Outcome.ok.injEq] at hw
        simp only [h8, if_true]
        refine ⟨by simp, ?_⟩
        rw [hown, ← hw]
        exact emit_eq s c out
      · simp only [h8, if_false] at hw
        simp only [h8, if_false]
        obtain ⟨hr, ho⟩ := forOut_link g s (createStaticProfile fuel g) (visits fuel g)
          (fun s' n' o o' hv => ih s' n' o o' hv) (g.node n).Out _ out' hw
        refine ⟨hr, ?_⟩
        rw [ho, emit_eq s c out]
        have : samplesOf g ((s, n) :: (forOutVisits (visits fuel g) g s (g.node n).Out).1)
            = emit s c [] ++ samplesOf g (forOutVisits (visits fuel g) g s (g.node n).Out).1 := by
          rw [← hown]
          simp [samplesOf]
        rw [this, List.append_assoc]

/-! ## Invariants of the visited calls -/

theorem forOutVisits_inv (g : Graph) (P : Stack → NodeId → Prop)
    (tr : Stack → NodeId → List (Stack × NodeId) × Bool)
    (htr : ∀ s' n', P s' n' → ∀ p ∈ (tr s' n').1, P p.1 p.2)
    (s : Stack) :
    ∀ (edges : List NodeId),
      (∀ callee ∈ edges, ∀ fn, NewFunc (g.node callee) = some fn → ¬ isInit fn →
        fn ∉ s.seen → P (s.Add fn) callee) →
      ∀ p ∈ (forOutVisits tr g s edges).1, P p.1 p.2 := by
  intro edges
  induction edges with
  | nil => intro _ p hp; simp [forOutVisits] at hp
  | cons callee rest ih =>
    intro hedges p hp
    have hrest := ih (fun c hc => hedges c (List.mem_cons_of_mem _ hc))
    rcases edge_cases g s callee with hn | ⟨fn, hfn, hi | hs | ⟨hi, hs⟩⟩
    · rw [forOutVisits_panic tr g s callee rest hn] at hp
      simp at hp
    · rw [forOutVisits_skip_init tr g s callee rest fn hfn hi] at hp
      exact hrest p hp
    · rw [forOutVisits_skip_seen tr g s callee rest fn hfn hs] at hp
      exact hrest p hp
    · rw [forOutVisits_descend tr g s callee rest fn hfn hi hs] at hp
      have hP := hedges callee (List.mem_cons_self _ _) fn hfn hi hs
      by_cases hb : (tr (s.Add fn) callee).2 = true
      · simp only [hb, if_true, List.mem_append] at hp
        rcases hp with hp | hp
        · exact htr _ _ hP p hp
        · exact hrest p hp
      · simp only [hb] at hp
        exact htr _ _ hP p hp

/-- An invariant of the pair (path, node) that holds at the first call and is
kept by every edge the loop follows holds at every call of the walk. -/
theorem visits_inv (g : Graph) (P : Stack → NodeId → Prop)
    (hstep : ∀ s n callee fn, P s n → s.stack.length < 8 → callee ∈ (g.node n).Out →
      NewFunc (g.node callee) = some fn → ¬ isInit fn → fn ∉ s.seen →
      P (s.Add fn) callee) :
    ∀ (fuel : Nat) (s : Stack) (n : NodeId), P s n →
      ∀ p ∈ (visits fuel g s n).1, P p.1 p.2 := by
  intro fuel
  induction fuel with
  | zero => intro s n _ p hp; simp [visits] at hp
  | succ fuel ih =>
    intro s n hP p hp
    rw [visits_succ] at hp
    cases hc : weigh s (g.node n) with
    | none =>
      simp only [hc, List.mem_singleton] at hp
      rw [hp]; exact hP
    | some c =>
      simp only [hc] at hp
      by_cases h8 : s.stack.length ≥ 8
      · simp only [h8, if_true, List.mem_singleton] at hp
        rw [hp]; exact hP
      · simp only [h8, if_false, List.mem_cons] at hp
        rcases hp with hp | hp
        · rw [hp]; exact hP
        · exact forOutVisits_inv g P (visits fuel g) ih s (g.node n).Out
            (fun callee hc fn hfn hi hs => hstep s n callee fn hP (by omega) hc hfn hi hs) p hp

theorem mem_own (g : Graph) (s : Stack) (n : NodeId) (smp : Sample) (h : smp ∈ own g s n) :
    smp.Frames = s.stack ∧ 0 < smp.Count ∧ weigh s (g.node n) = some smp.Count := by
  unfold own at h
  cases hc : weigh s (g.node n) with
  | none => simp [hc] at h
  | some c =>
    simp only [hc, emit] at h
    by_cases hpos : c > 0
    · simp only [hpos, if_true, List.nil_append, List.mem_singleton] at h
      subst h
      exact ⟨rfl, hpos, rfl⟩
    · simp [hpos] at h

theorem mem_samplesOf (g : Graph) (t : List (Stack × NodeId)) (smp : Sample)
    (h : smp ∈ samplesOf g t) : ∃ p ∈ t, smp ∈ own g p.1 p.2 := by
  simpa [samplesOf, List.mem_flatMap] using h

/-- Every sample a walk appends has the path of one of its calls as frames. -/
theorem walk_samples (g : Graph) (fuel : Nat) (s : Stack) (n : NodeId)
    (out out' : List Sample) (h : createStaticProfile fuel g s n out = Outcome.ok out') :
    ∃ rest, out' = out ++ rest ∧ ∀ smp ∈ rest, ∃ p ∈ (visits fuel g s n).1,
      smp.Frames = p.1.stack ∧ 0 < smp.Count ∧ weigh p.1 (g.node p.2) = some smp.Count := by
  obtain ⟨_, ho⟩ := walk_link g fuel s n out out' h
  refine ⟨samplesOf g (visits fuel g s n).1, ho, ?_⟩
  intro smp hsmp
  obtain ⟨p, hp, hown⟩ := mem_samplesOf g _ smp hsmp
  exact ⟨p, hp, mem_own g p.1 p.2 smp hown⟩

/-! ## Termination -/

theorem forOut_ne_outOfFuel (g : Graph) (s : Stack)
    (visit : Stack → NodeId → List Sample → Outcome)
    (h : ∀ fn n' o, visit (s.Add fn) n' o ≠ Outcome.outOfFuel) :
    ∀ (edges : List NodeId) (out : List Sample),
      forOut visit g s edges out ≠ Outcome.outOfFuel := by
  intro edges
  induction edges with
  | nil => intro out; simp [forOut]
  | cons callee rest ih =>
    intro out
    rcases edge_cases g s callee with hn | ⟨fn, hfn, hi | hs | ⟨hi, hs⟩⟩
    · rw [forOut_panic visit g s callee rest out hn]; simp
    · rw [forOut_skip_init visit g s callee rest out fn hfn hi]; exact ih out
    · rw [forOut_skip_seen visit g s callee rest out fn hfn hs]; exact ih out
    · rw [forOut_descend visit g s callee rest out fn hfn hi hs]
      cases hv : visit (s.Add fn) callee out with
      | ok o1 => exact ih o1
      | crash => simp
      | outOfFuel => exact absurd hv (h _ _ _)

/-- Fuel that covers the distance of the path to the ceiling, plus one, is
never exhausted. -/
theorem createStaticProfile_ne_outOfFuel (g : Graph) :
    ∀ (fuel : Nat) (s : Stack) (n : NodeId) (out : List Sample),
      1 ≤ fuel → 9 ≤ fuel + s.stack.length →
      createStaticProfile fuel g s n out ≠ Outcome.outOfFuel := by
  intro fuel
  induction fuel with
  | zero => intro s n out h; omega
  | succ fuel ih =>
    intro s n out _ hf
    rw [createStaticProfile_succ]
    cases hc : weigh s (g.node n) with
    | none => simp
    | some c =>
      by_cases h8 : s.stack.length ≥ 8
      · simp [h8]
      · simp only [h8, if_false]
        apply forOut_ne_outOfFuel
        intro fn n' o
        apply ih
        · omega
        · rw [Stack.Add_length]; omega

theorem forOut_ne_crash (g : Graph) (hrecv : ∀ c, NewFunc (g.node c) ≠ none) (s : Stack)
    (visit : Stack → NodeId → List Sample → Outcome)
    (h : ∀ fn n' o, visit (s.Add fn) n' o ≠ Outcome.crash) :
    ∀ (edges : List NodeId) (out : List Sample),
      forOut visit g s edges out ≠ Outcome.crash := by
  intro edges
  induction edges with
  | nil => intro out; simp [forOut]
  | cons callee rest ih =>
    intro out
    rcases edge_cases g s callee with hn | ⟨fn, hfn, hi | hs | ⟨hi, hs⟩⟩
    · exact absurd hn (hrecv callee)
    · rw [forOut_skip_init visit g s callee rest out fn hfn hi]; exact ih out
    · rw [forOut_skip_seen visit g s callee rest out fn hfn hs]; exact ih out
    · rw [forOut_descend visit g s callee rest out fn hfn hi hs]
      cases hv : visit (s.Add fn) callee out with
      | ok o1 => exact ih o1
      | crash => exact absurd hv (h _ _ _)
      | outOfFuel => simp

/-- When `NewFunc` succeeds on every node, a call can only panic by the
division, at the empty path, on a node that has syntax. -/
theorem createStaticProfile_ne_crash (g : Graph) (hrecv : ∀ c, NewFunc (g.node c) ≠ none) :
    ∀ (fuel : Nat) (s : Stack) (n : NodeId) (out : List Sample),
      (1 ≤ s.stack.length ∨ (g.node n).Fn.Syn = none) →
      createStaticProfile fuel g s n out ≠ Outcome.crash := by
  intro fuel
  induction fuel with
  | zero => intro s n out _; simp [createStaticProfile]
  | succ fuel ih =>
    intro s n out hs
    rw [createStaticProfile_succ]
    cases hc : weigh s (g.node n) with
    | none => exact absurd hc (weigh_ne_none s (g.node n) hs)
    | some c =>
      by_cases h8 : s.stack.length ≥ 8
      · simp [h8]
      · simp only [h8, if_false]
        apply forOut_ne_crash g hrecv
        intro fn n' o
        apply ih
        left
        rw [Stack.Add_length]; omega

theorem forOut_mono (g : Graph) (s : Stack)
    (v1 v2 : Stack → NodeId → List Sample → Outcome)
    (h : ∀ s' n' o, v1 s' n' o ≠ Outcome.outOfFuel → v2 s' n' o = v1 s' n' o) :
    ∀ (edges : List NodeId) (out : List Sample),
      forOut v1 g s edges out ≠ Outcome.outOfFuel →
      forOut v2 g s edges out = forOut v1 g s edges out := by
  intro edges
  induction edges with
  | nil => intro out _; simp [forOut]
  | cons callee rest ih =>
    intro out hne
    rcases edge_cases g s callee with hn | ⟨fn, hfn, hi | hs | ⟨hi, hs⟩⟩
    · rw [forOut_panic v1 g s callee rest out hn, forOut_panic v2 g s callee rest out hn]
    · rw [forOut_skip_init v1 g s callee rest out fn hfn hi] at hne ⊢
      rw [forOut_skip_init v2 g s callee rest out fn hfn hi]
      exact ih out hne
    · rw [forOut_skip_seen v1 g s callee rest out fn hfn hs] at hne ⊢
      rw [forOut_skip_seen v2 g s callee rest out fn hfn hs]
      exact ih out hne
    · rw [forOut_descend v1 g s callee rest out fn hfn hi hs] at hne ⊢
      rw [forOut_descend v2 g s callee rest out fn hfn hi hs]
      cases hv : v1 (s.Add fn) callee out with
      | ok o1 =>
        rw [hv] at hne
        rw [h _ _ _ (by rw [hv]; simp), hv]
        exact ih o1 hne
      | crash => rw [h _ _ _ (by rw [hv]; simp), hv]
      | outOfFuel => rw [hv] at hne; exact absurd rfl hne

/-- More fuel does not change the outcome of a call that did not run out. -/
theorem createStaticProfile_mono (g : Graph) :
    ∀ (fuel : Nat) (s : Stack) (n : NodeId) (out : List Sample),
      createStaticProfile fuel g s n out ≠ Outcome.outOfFuel →
      createStaticProfile (fuel + 1) g s n out = createStaticProfile fuel g s n out := by
  intro fuel
  induction fuel with
  | zero => intro s n out h; exact absurd rfl h
  | succ fuel ih =>
    intro s n out hne
    rw [createStaticProfile_succ (fuel + 1), createStaticProfile_succ fuel] at *
    cases hc : weigh s (g.node n) with
    | none => rfl
    | some c =>
      rw [hc] at hne
      by_cases h8 : s.stack.length ≥ 8
      · simp [h8]
      · simp only [h8, if_false] at hne ⊢
        exact forOut_mono g s _ _ (fun s' n' o hh => ih s' n' o hh) _ _ hne

theorem createStaticProfile_mono_add (g : Graph) (fuel : Nat) (s : Stack) (n : NodeId)
    (out : List Sample) (h : createStaticProfile fuel g s n out ≠ Outcome.outOfFuel) (k : Nat) :
    createStaticProfile (fuel + k) g s n out = createStaticProfile fuel g s n out := by
  induction k with
  | zero => rfl
  | succ k ih =>
    rw [← Nat.add_assoc, createStaticProfile_mono g (fuel + k) s n out (by rw [ih]; exact h), ih]

/-! ## The shape of a walk's output -/

theorem prefix_Add (s : Stack) (fn : Func) : s.stack <+: (s.Add fn).stack := by
  rw [Stack.Add_stack]; exact List.prefix_append _ _

/-- The calls made below a call hold strictly longer paths that extend the
call's own path. -/
theorem visits_head_tail (g : Graph) (fuel : Nat) (s : Stack) (n : NodeId) :
    ∃ tail, (visits (fuel + 1) g s n).1 = (s, n) :: tail ∧
      ∀ p ∈ tail, s.stack.length < p.1.stack.length ∧ s.stack <+: p.1.stack := by
  rw [visits_succ]
  cases hc : weigh s (g.node n) with
  | none => exact ⟨[], rfl, by simp⟩
  | some c =>
    by_cases h8 : s.stack.length ≥ 8
    · exact ⟨[], by simp [h8], by simp⟩
    · refine ⟨(forOutVisits (visits fuel g) g s (g.node n).Out).1, by simp [h8], ?_⟩
      have hinv := visits_inv g
        (fun s' _ => s.stack.length < s'.stack.length ∧ s.stack <+: s'.stack)
        (fun s' _ _ fn hP _ _ _ _ _ =>
          ⟨by rw [Stack.Add_length]; omega, hP.2.trans (prefix_Add s' fn)⟩) fuel
      exact forOutVisits_inv g
        (fun s' _ => s.stack.length < s'.stack.length ∧ s.stack <+: s'.stack)
        (visits fuel g) hinv s (g.node n).Out
        (fun _ _ fn _ _ _ => ⟨by rw [Stack.Add_length]; omega, prefix_Add s fn⟩)

/-- The output of a call is the input list, then the call's own sample if it
has one, then samples with strictly longer frame lists that extend the call's
path. -/
theorem walk_own_rest (g : Graph) (fuel : Nat) (s : Stack) (n : NodeId)
    (out out' : List Sample) (h : createStaticProfile (fuel + 1) g s n out = Outcome.ok out') :
    ∃ rest, out' = out ++ own g s n ++ rest ∧
      ∀ smp ∈ rest, s.stack.length < smp.Frames.length ∧ s.stack <+: smp.Frames ∧
        0 < smp.Count := by
  obtain ⟨_, ho⟩ := walk_link g (fuel + 1) s n out out' h
  obtain ⟨tail, htail, hlong⟩ := visits_head_tail g fuel s n
  refine ⟨samplesOf g tail, ?_, ?_⟩
  · rw [ho, htail]
    simp [samplesOf, List.append_assoc]
  · intro smp hsmp
    obtain ⟨p, hp, hown⟩ := mem_samplesOf g tail smp hsmp
    obtain ⟨hf, hcnt, _⟩ := mem_own g p.1 p.2 smp hown
    obtain ⟨h1, h2⟩ := hlong p hp
    rw [hf]
    exact ⟨h1, h2, hcnt⟩

/-- When `NewFunc` succeeds on every node, a call whose path is non-empty, or
whose node has no syntax, returns a sample list once the fuel covers the
distance to the ceiling. -/
theorem createStaticProfile_returns (g : Graph) (hrecv : ∀ c, NewFunc (g.node c) ≠ none)
    (fuel : Nat) (s : Stack) (n : NodeId)
    (out : List Sample) (hf : 8 ≤ fuel + s.stack.length)
    (hs : 1 ≤ s.stack.length ∨ (g.node n).Fn.Syn = none) :
    ∃ out', createStaticProfile (fuel + 1) g s n out = Outcome.ok out' := by
  have h1 := createStaticProfile_ne_outOfFuel g (fuel + 1) s n out (by omega) (by omega)
  have h2 := createStaticProfile_ne_crash g hrecv (fuel + 1) s n out hs
  cases hr : createStaticProfile (fuel + 1) g s n out with
  | ok out' => exact ⟨out', rfl⟩
  | crash => exact absurd hr h2
  | outOfFuel => exact absurd hr h1

/-- Every sample of a walk from the root, started as `run` starts it, has the
path of one of the walk's calls as frames. -/
theorem runWalk_samples (g : Graph) (fuel : Nat) (out : List Sample)
    (h : runWalk fuel g = Outcome.ok out) (smp : Sample) (hsmp : smp ∈ out) :
    ∃ p ∈ (visits fuel g NewStack g.Root).1,
      smp.Frames = p.1.stack ∧ 0 < smp.Count ∧ weigh p.1 (g.node p.2) = some smp.Count := by
  obtain ⟨rest, hout, hrest⟩ := walk_samples g fuel NewStack g.Root [] out h
  rw [List.nil_append] at hout
  subst hout
  exact hrest smp hsmp

/-- Paths never grow beyond the ceiling. -/
theorem visits_length_le (g : Graph) (fuel : Nat) (s : Stack) (n : NodeId)
    (hs : s.stack.length ≤ 8) : ∀ p ∈ (visits fuel g s n).1, p.1.stack.length ≤ 8 :=
  visits_inv g (fun s' _ => s'.stack.length ≤ 8)
    (fun s' _ _ fn _ hlt _ _ _ _ => by
      show (s'.Add fn).stack.length ≤ 8
      rw [Stack.Add_length]; omega) fuel s n hs

theorem Tracked_NewStack : Tracked NewStack := by
  simp [Tracked, NewStack]

theorem Tracked_Add (s : Stack) (fn : Func) (h : Tracked s) (hfn : fn ∉ s.seen) :
    Tracked (s.Add fn) := by
  obtain ⟨hnd, hmem⟩ := h
  refine ⟨?_, fun f => ?_⟩
  · rw [Stack.Add_stack]
    refine List.Nodup.append hnd (List.nodup_singleton fn) ?_
    intro x hx hx'
    rw [List.mem_singleton] at hx'
    subst hx'
    exact hfn ((hmem x).2 hx)
  · rw [Stack.mem_Add_seen, Stack.Add_stack, List.mem_append, List.mem_singleton, hmem]
    exact or_comm

theorem visits_tracked (g : Graph) (fuel : Nat) (s : Stack) (n : NodeId) (hs : Tracked s) :
    ∀ p ∈ (visits fuel g s n).1, Tracked p.1 :=
  visits_inv g (fun s' _ => Tracked s')
    (fun s' _ _ fn hP _ _ _ _ hseen => Tracked_Add s' fn hP hseen) fuel s n hs

/-- A node with an outgoing edge and body size 0 has no sample of its own. -/
theorem own_eq_nil (g : Graph) (s : Stack) (n : NodeId) (hout : (g.node n).Out ≠ [])
    (hsize : bodySize (g.node n) = 0) : own g s n = [] := by
  unfold own
  by_cases hL : 1 ≤ s.stack.length
  · rw [weigh_of_pos s (g.node n) hL (by omega) (by rw [hsize]; simp [hout]), hsize]
    simp [hout, emit]
  · cases hsyn : (g.node n).Fn.Syn with
    | none =>
      rw [weigh_of_noSyn s (g.node n) hsyn]
      simp [hout, emit]
    | some syn =>
      rw [weigh_of_empty s (g.node n) syn hsyn (by omega)]

/-- A node without outgoing edges, weighed at a non-empty path or without
syntax, gets a count of at least 1. -/
theorem weigh_leaf (s : Stack) (n : Node) (hleaf : n.Out = [])
    (hpath : 1 ≤ s.stack.length ∨ n.Fn.Syn = none)
    (hS0 : 0 ≤ bodySize n)
    (hS1 : bodySize n / max 1 (s.stack.length : Int) + 1 < 2 ^ 63) :
    ∃ count, weigh s n = some count ∧ 1 ≤ count ∧
      (1 ≤ s.stack.length → count = bodySize n / (s.stack.length : Int) + 1) ∧
      (n.Fn.Syn = none → count = 1) := by
  by_cases hL : 1 ≤ s.stack.length
  · have hLz : (0 : Int) < (s.stack.length : Int) := by exact_mod_cast hL
    have hq0 : 0 ≤ bodySize n / (s.stack.length : Int) := Int.ediv_nonneg hS0 (le_of_lt hLz)
    refine ⟨bodySize n / (s.stack.length : Int) + 1, ?_, by omega, fun _ => rfl, fun hsyn => ?_⟩
    · have hmax : max 1 (s.stack.length : Int) = (s.stack.length : Int) :=
        max_eq_right (by omega)
      rw [hmax] at hS1
      rw [weigh_of_pos s n hL hS0 (by simpa [hleaf] using hS1)]; simp [hleaf]
    · simp [bodySize, hsyn]
  · rcases hpath with hp | hp
    · exact absurd hp hL
    · exact ⟨1, by rw [weigh_of_noSyn s n hp]; simp [hleaf], le_refl 1,
        fun h => absurd h hL, fun _ => rfl⟩

/-- No call of a walk started with the empty stack holds a path with the
plain function `init` on it. -/
theorem visits_no_init (g : Graph) (fuel : Nat) :
    ∀ p ∈ (visits fuel g NewStack g.Root).1, ∀ f ∈ p.1.stack, ¬ isInit f :=
  visits_inv g (fun s' _ => ∀ f ∈ s'.stack, ¬ isInit f)
    (fun s' _ _ fn hP _ _ _ hi _ => by
      show ∀ f ∈ (s'.Add fn).stack, ¬ isInit f
      intro f hf
      rw [Stack.Add_stack, List.mem_append, List.mem_singleton] at hf
      rcases hf with hf | hf
      · exact hP f hf
      · rw [hf]; exact hi) fuel NewStack g.Root (by simp [NewStack])

/-- In a walk from a root without syntax every call has a non-empty path or a
node without syntax: the division never has the divisor 0. -/
theorem visits_divisor (g : Graph) (fuel : Nat) (hroot : (g.node g.Root).Fn.Syn = none) :
    ∀ p ∈ (visits fuel g NewStack g.Root).1,
      1 ≤ p.1.stack.length ∨ (g.node p.2).Fn.Syn = none :=
  visits_inv g (fun s' n' => 1 ≤ s'.stack.length ∨ (g.node n').Fn.Syn = none)
    (fun s' _ callee fn _ _ _ _ _ _ => by
      show 1 ≤ (s'.Add fn).stack.length ∨ (g.node callee).Fn.Syn = none
      left; rw [Stack.Add_length]; omega) fuel NewStack g.Root (Or.inr hroot)

/-- A call on a node without outgoing edges whose count is positive appends
its sample and returns. -/
theorem walk_leaf (g : Graph) (fuel : Nat) (s : Stack) (n : NodeId) (out : List Sample)
    (count : Int) (hleaf : (g.node n).Out = []) (hw : weigh s (g.node n) = some count)
    (hpos : 0 < count) :
    createStaticProfile (fuel + 1) g s n out
      = Outcome.ok (out ++ [{ Frames := s.stack, Count := count }]) := by
  rw [createStaticProfile_succ, hw]
  by_cases h8 : s.stack.length ≥ 8
  · simp [h8, emit, hpos]
  · simp [h8, emit, hpos, hleaf, forOut]

/-! ## The claims -/

/-- C1, counterexample: the leaf `A` of `hugeLeafGraph` is visited with the path
`[A]` of length 1; its body size is `2 ^ 63 - 1`, so `w = S / 1 + 1 = 2 ^ 63 > 0`,
but the `int64` count wraps to `-2 ^ 63` and the visit appends no sample. -/
theorem C1_counterexample :
    (NewStack.Add funcA).stack.length = 1 ∧
    (hugeLeafGraph.node 1).Out = [] ∧
    bodySize (hugeLeafGraph.node 1) = 2 ^ 63 - 1 ∧
    0 < bodySize (hugeLeafGraph.node 1) / ((NewStack.Add funcA).stack.length : Int) + 1 ∧
    weigh (NewStack.Add funcA) (hugeLeafGraph.node 1) = some (-2 ^ 63) ∧
    createStaticProfile 9 hugeLeafGraph (NewStack.Add funcA) 1 [] = Outcome.ok [] ∧
    runWalk 9 hugeLeafGraph = Outcome.ok [] := by
  decide

/-- C1, amended: a visit of `createStaticProfile` to node `n` with a path `s`
of length `L ≥ 1`, where the body size `S` of `n` is non-negative (0 without
syntax) and `w = S / L + (1 if n has no outgoing edge)` does not exceed the
largest `int64`, has the count `w`, which is non-negative; the visit appends
exactly one sample `(s.stack, w)` if `w > 0` and nothing if `w = 0`, before
the loop over the edges runs, and whenever the call returns, its list is
`out`, then that sample if any, then samples of the calls below, all with
strictly longer frame lists. -/
theorem C1_visit_appends_own_sample (g : Graph) (fuel : Nat) (s : Stack) (n : NodeId)
    (out : List Sample) (hL : 1 ≤ s.stack.length) (hS0 : 0 ≤ bodySize (g.node n))
    (hW : bodySize (g.node n) / (s.stack.length : Int)
      + (if (g.node n).Out = [] then 1 else 0) < 2 ^ 63) :
    weigh s (g.node n) = some (bodySize (g.node n) / (s.stack.length : Int)
        + (if (g.node n).Out = [] then 1 else 0)) ∧
    0 ≤ bodySize (g.node n) / (s.stack.length : Int)
        + (if (g.node n).Out = [] then 1 else 0) ∧
    createStaticProfile (fuel + 1) g s n out =
      (if s.stack.length ≥ 8 then
        Outcome.ok (out ++
          (if 0 < bodySize (g.node n) / (s.stack.length : Int)
              + (if (g.node n).Out = [] then 1 else 0)
           then [{ Frames := s.stack,
                   Count := bodySize (g.node n) / (s.stack.length : Int)
                     + (if (g.node n).Out = [] then 1 else 0) }]
           else []))
      else
        forOut (createStaticProfile fuel g) g s (g.node n).Out (out ++
          (if 0 < bodySize (g.node n) / (s.stack.length : Int)
              + (if (g.node n).Out = [] then 1 else 0)
           then [{ Frames := s.stack,
                   Count := bodySize (g.node n) / (s.stack.length : Int)
                     + (if (g.node n).Out = [] then 1 else 0) }]
           else []))) ∧
    ∀ out', createStaticProfile (fuel + 1) g s n out = Outcome.ok out' →
      ∃ rest, out' = out ++
          (if 0 < bodySize (g.node n) / (s.stack.length : Int)
              + (if (g.node n).Out = [] then 1 else 0)
           then [{ Frames := s.stack,
                   Count := bodySize (g.node n) / (s.stack.length : Int)
                     + (if (g.node n).Out = [] then 1 else 0) }]
           else []) ++ rest ∧
        ∀ smp ∈ rest, s.stack.length < smp.Frames.length ∧ s.stack <+: smp.Frames := by
  have hw := weigh_of_pos s (g.node n) hL hS0 hW
  have hLz : (0 : Int) < (s.stack.length : Int) := by exact_mod_cast hL
  have hq0 : 0 ≤ bodySize (g.node n) / (s.stack.length : Int) :=
    Int.ediv_nonneg hS0 (le_of_lt hLz)
  have hown : own g s n =
      (if 0 < bodySize (g.node n) / (s.stack.length : Int)
          + (if (g.node n).Out = [] then 1 else 0)
       then [{ Frames := s.stack,
               Count := bodySize (g.node n) / (s.stack.length : Int)
                 + (if (g.node n).Out = [] then 1 else 0) }]
       else []) := by
    simp only [own, hw, emit, gt_iff_lt, List.nil_append]
  refine ⟨hw, ?_, ?_, ?_⟩
  · by_cases ho : (g.node n).Out = [] <;> simp [ho] <;> omega
  · have he : ∀ o, emit s (bodySize (g.node n) / (s.stack.length : Int)
        + (if (g.node n).Out = [] then 1 else 0)) o = o ++ own g s n := by
      intro o; rw [emit_eq, own, hw]
    rw [createStaticProfile_succ, hw]
    simp only [he, hown]
  · intro out' hret
    obtain ⟨rest, hout, hrest⟩ := walk_own_rest g fuel s n out out' hret
    refine ⟨rest, ?_, fun smp hsmp => ⟨(hrest smp hsmp).1, (hrest smp hsmp).2.1⟩⟩
    rw [hout, hown]

/-- Witness of C1 on `recursiveGraph`: node `A` visited with the path `[A]`. -/
theorem C1_witness :
    weigh (NewStack.Add funcA) (recursiveGraph.node 1) = some (40 / ((1 : Nat) : Int) + 0) ∧
    ∃ rest, createStaticProfile 9 recursiveGraph (NewStack.Add funcA) 1 []
      = Outcome.ok ([] ++ [{ Frames := [funcA], Count := 40 }] ++ rest) := by
  have h := C1_visit_appends_own_sample recursiveGraph 8 (NewStack.Add funcA) 1 []
    (by decide) (by decide) (by decide)
  obtain ⟨h1, _, _, h4⟩ := h
  refine ⟨h1.trans (by decide), ?_⟩
  have hv : createStaticProfile (8 + 1) recursiveGraph (NewStack.Add funcA) 1 []
      = Outcome.ok [{ Frames := [funcA], Count := 40 },
          { Frames := [funcA, funcB], Count := 1 }] := by decide
  obtain ⟨rest, h5, _⟩ := h4 _ hv
  refine ⟨rest, ?_⟩
  rw [hv, h5]
  exact congrArg (fun m => Outcome.ok ([] ++ m ++ rest)) (by decide)

/-- C2: in the walk `run` starts at the root of the call graph, which is the
synthetic root and has no syntax, a node whose body size is available is only
weighed with a non-empty path, so the divisor of line 174 is never zero; and
at every call the self weight of a node of non-negative body size `S` (0
without syntax) is `S / max 1 L` for the path length `L`, which at the empty
path is the full body size. -/
theorem C2_self_weight (g : Graph) (fuel : Nat) (hroot : (g.node g.Root).Fn.Syn = none) :
    ∀ p ∈ (visits fuel g NewStack g.Root).1,
      ((g.node p.2).Fn.Syn ≠ none → 1 ≤ p.1.stack.length) ∧
      selfWeight p.1 (g.node p.2) ≠ none ∧
      (0 ≤ bodySize (g.node p.2) →
        selfWeight p.1 (g.node p.2)
          = some (bodySize (g.node p.2) / max 1 (p.1.stack.length : Int))) ∧
      (p.1.stack.length = 0 →
        selfWeight p.1 (g.node p.2) = some (bodySize (g.node p.2))) := by
  intro p hp
  have hdiv := visits_divisor g fuel hroot p hp
  refine ⟨?_, selfWeight_ne_none _ _ hdiv, ?_, ?_⟩
  · intro hsyn
    rcases hdiv with h | h
    · exact h
    · exact absurd h hsyn
  · intro h0
    by_cases hL : 1 ≤ p.1.stack.length
    · have hmax : max 1 (p.1.stack.length : Int) = (p.1.stack.length : Int) :=
        max_eq_right (by omega)
      rw [hmax]
      exact selfWeight_of_pos _ _ hL h0
    · rcases hdiv with h | h
      · exact absurd h hL
      · rw [selfWeight_of_noSyn _ _ h]
        simp [bodySize, h]
  · intro hlen
    rcases hdiv with h | h
    · omega
    · rw [selfWeight_of_noSyn _ _ h]
      simp [bodySize, h]

/-- Witness of C2 on `recursiveGraph`: node `A` (size 40) is weighed with the
path `[A]`. -/
theorem C2_witness :
    selfWeight (NewStack.Add funcA) (recursiveGraph.node 1) = some (40 / max 1 1) := by
  have h := (C2_self_weight recursiveGraph 9 (by decide) (NewStack.Add funcA, 1)
    (by decide)).2.2.1 (by decide)
  exact h.trans (by decide)

/-- Fuel 9 is never exhausted by the walk of `run`, and more fuel does not
change its outcome; when `NewFunc` succeeds on every node and the root has no
syntax, the outcome is a sample list. -/
theorem walk_terminates (g : Graph) (fuel : Nat) (hfuel : 9 ≤ fuel) :
    runWalk fuel g = runWalk 9 g ∧
    runWalk fuel g ≠ Outcome.outOfFuel ∧
    ((∀ c, NewFunc (g.node c) ≠ none) → (g.node g.Root).Fn.Syn = none →
      ∃ out, runWalk fuel g = Outcome.ok out) := by
  have h9 : createStaticProfile 9 g NewStack g.Root [] ≠ Outcome.outOfFuel :=
    createStaticProfile_ne_outOfFuel g 9 NewStack g.Root [] (by omega) (by omega)
  have heq : runWalk fuel g = runWalk 9 g := by
    obtain ⟨j, rfl⟩ : ∃ j, fuel = 9 + j := ⟨fuel - 9, by omega⟩
    exact createStaticProfile_mono_add g 9 NewStack g.Root [] h9 j
  refine ⟨heq, ?_, ?_⟩
  · rw [heq]; exact h9
  · intro hrecv hsyn
    rw [heq]
    exact createStaticProfile_returns g hrecv 8 NewStack g.Root [] (by omega) (Or.inr hsyn)

/-- No amount of fuel makes the walk of `unnamedReceiverGraph` return a list:
it panics in `NewFunc` as soon as it reaches the second edge of the root. -/
theorem unnamedReceiverGraph_no_result :
    ¬ ∃ fuel out, runWalk fuel unnamedReceiverGraph = Outcome.ok out := by
  rintro ⟨fuel, out, h⟩
  have h2 : createStaticProfile 2 unnamedReceiverGraph NewStack unnamedReceiverGraph.Root []
      = Outcome.crash := by decide
  match fuel, h with
  | 0, h => cases h
  | 1, h =>
    have h1 : runWalk 1 unnamedReceiverGraph = Outcome.outOfFuel := by decide
    rw [h1] at h
    cases h
  | k + 2, h =>
    have hm := createStaticProfile_mono_add unnamedReceiverGraph 2 NewStack
      unnamedReceiverGraph.Root [] (by rw [h2]; simp) k
    rw [h2] at hm
    have hk : k + 2 = 2 + k := by omega
    unfold runWalk at h
    rw [hk, hm] at h
    cases h

/-- C3, failing input: on `unnamedReceiverGraph`, a finite call graph whose
root has no syntax, the walk started at the root with the empty stack returns
no sample list, whatever the fuel: after the visit of `A` the loop calls
`NewFunc` on the method whose receiver is a pointer to a type that is not a
`*types.Named`, and the unchecked type assertion panics. -/
theorem C3_failing_input :
    (unnamedReceiverGraph.node unnamedReceiverGraph.Root).Fn.Syn = none ∧
    (unnamedReceiverGraph.node 2).Fn.Recv = some RecvType.pointerToOther ∧
    NewFunc (unnamedReceiverGraph.node 2) = none ∧
    runWalk 9 unnamedReceiverGraph = Outcome.crash ∧
    ¬ ∃ fuel out, runWalk fuel unnamedReceiverGraph = Outcome.ok out :=
  ⟨by decide, by decide, by decide, by decide, unnamedReceiverGraph_no_result⟩

/-- C4: in a walk started with the empty stack every call of
`createStaticProfile` holds a path of at most 8 frames, so every emitted
sample has at most 8 frames. A call with a path of exactly 8 frames still
weighs its node and appends its sample when the count is positive, and makes
no further call: it returns with a single level of recursion, whatever the
outgoing edges of the node. -/
theorem C4_path_length_at_most_eight (g : Graph) (fuel : Nat) :
    (∀ p ∈ (visits fuel g NewStack g.Root).1, p.1.stack.length ≤ 8) ∧
    (∀ out, runWalk fuel g = Outcome.ok out → ∀ smp ∈ out, smp.Frames.length ≤ 8) ∧
    (∀ (s : Stack) (n : NodeId) (out : List Sample), s.stack.length = 8 →
      ∃ count, weigh s (g.node n) = some count ∧
        createStaticProfile (fuel + 1) g s n out =
          Outcome.ok (if count > 0 then out ++ [{ Frames := s.stack, Count := count }]
            else out) ∧
        visits (fuel + 1) g s n = ([(s, n)], true)) := by
  have hv := visits_length_le g fuel NewStack g.Root (by simp [NewStack])
  refine ⟨hv, ?_, ?_⟩
  · intro out h smp hsmp
    obtain ⟨p, hp, hf, _, _⟩ := runWalk_samples g fuel out h smp hsmp
    rw [hf]
    exact hv p hp
  · intro s n out h8
    cases hc : weigh s (g.node n) with
    | none => exact absurd hc (weigh_ne_none s (g.node n) (Or.inl (by omega)))
    | some c =>
      refine ⟨c, rfl, ?_, ?_⟩
      · rw [createStaticProfile_succ, hc]
        simp [h8, emit]
      · rw [visits_succ, hc]
        simp [h8]

/-- Witness of C4 on `chainGraph`, a chain of eleven calls below the root: the
walk emits one sample per function down to the eighth, whose sample has
exactly 8 frames and count `80 / 8`, and nothing below it. -/
theorem C4_witness :
    (match runWalk 9 chainGraph with
      | Outcome.ok out => out.map (fun smp => (smp.Frames.length, smp.Count))
      | _ => [])
      = [(1, 80), (2, 40), (3, 26), (4, 20), (5, 16), (6, 13), (7, 11), (8, 10)] ∧
    (∀ p ∈ (visits 9 chainGraph NewStack chainGraph.Root).1, p.1.stack.length ≤ 8) :=
  ⟨by decide, (C4_path_length_at_most_eight chainGraph 9).1⟩

/-- C5: in every sample emitted by a walk started with the empty stack no
`Func` value occurs at two positions of the frames. -/
theorem C5_frames_nodup (g : Graph) (fuel : Nat) (out : List Sample)
    (h : runWalk fuel g = Outcome.ok out) :
    ∀ smp ∈ out, smp.Frames.Nodup ∧
      ∀ i j : Fin smp.Frames.length, smp.Frames.get i = smp.Frames.get j → i = j := by
  intro smp hsmp
  obtain ⟨p, hp, hf, _, _⟩ := runWalk_samples g fuel out h smp hsmp
  have ht := visits_tracked g fuel NewStack g.Root Tracked_NewStack p hp
  have hnd : smp.Frames.Nodup := by rw [hf]; exact ht.1
  exact ⟨hnd, fun i j hij => List.nodup_iff_injective_get.1 hnd hij⟩

/-- Witness of C5 on `recursiveGraph`, where `A` calls itself. -/
theorem C5_witness :
    runWalk 9 recursiveGraph
      = Outcome.ok [{ Frames := [funcA], Count := 40 }, { Frames := [funcA, funcB], Count := 1 }] ∧
    ∀ smp ∈ [({ Frames := [funcA], Count := 40 } : Sample),
        { Frames := [funcA, funcB], Count := 1 }], smp.Frames.Nodup :=
  ⟨by decide, fun smp hsmp =>
    (C5_frames_nodup recursiveGraph 9 _ (by decide) smp hsmp).1⟩

/-- C6: every sample that `createStaticProfile` appends has `Count > 0`; and a
visited node with at least one outgoing edge whose body size is zero or
unavailable contributes no sample of its own: every appended sample then has
a frame list strictly longer than the path of the visit. -/
theorem C6_counts_positive (g : Graph) (fuel : Nat) (s : Stack) (n : NodeId)
    (out out' : List Sample) (h : createStaticProfile fuel g s n out = Outcome.ok out') :
    ∃ rest, out' = out ++ rest ∧ (∀ smp ∈ rest, 0 < smp.Count) ∧
      ((g.node n).Out ≠ [] → bodySize (g.node n) = 0 →
        own g s n = [] ∧
        ∀ smp ∈ rest, smp.Frames ≠ s.stack ∧ s.stack.length < smp.Frames.length) := by
  cases fuel with
  | zero => cases h
  | succ fuel =>
    obtain ⟨rest, hout, hrest⟩ := walk_own_rest g fuel s n out out' h
    refine ⟨own g s n ++ rest, by rw [hout, List.append_assoc], ?_, ?_⟩
    · intro smp hsmp
      rcases List.mem_append.1 hsmp with hm | hm
      · exact (mem_own g s n smp hm).2.1
      · exact (hrest smp hm).2.2
    · intro ho hsize
      have hnil := own_eq_nil g s n ho hsize
      refine ⟨hnil, ?_⟩
      intro smp hsmp
      rw [hnil, List.nil_append] at hsmp
      have hlt := (hrest smp hsmp).1
      refine ⟨fun heq => ?_, hlt⟩
      rw [heq] at hlt
      exact lt_irrefl _ hlt

/-- Witness of C6 on `recursiveGraph`: the root has an outgoing edge and no
body size, and the two samples of the walk are those of `A` and `B`. -/
theorem C6_witness :
    ∃ rest, [({ Frames := [funcA], Count := 40 } : Sample),
        { Frames := [funcA, funcB], Count := 1 }] = [] ++ rest ∧
      (∀ smp ∈ rest, 0 < smp.Count) ∧
      ∀ smp ∈ rest, smp.Frames ≠ NewStack.stack := by
  obtain ⟨rest, h1, h2, h3⟩ := C6_counts_positive recursiveGraph 9 NewStack 0 []
    [{ Frames := [funcA], Count := 40 }, { Frames := [funcA, funcB], Count := 1 }] (by decide)
  exact ⟨rest, h1, h2, fun smp hsmp => ((h3 (by decide) (by decide)).2 smp hsmp).1⟩

/-- C7, counterexample: in `hugeLeafGraph` the root has no syntax and its only
callee `A` has no outgoing edges and the body size `2^63 - 1`; the walk of
`run` visits `A` with the path `[A]`, the sum `S / 1 + 1` wraps to `-2^63` in
`int64`, and the visit emits no sample. -/
theorem C7_counterexample :
    (hugeLeafGraph.node hugeLeafGraph.Root).Fn.Syn = none ∧
    (hugeLeafGraph.node 1).Out = [] ∧
    bodySize (hugeLeafGraph.node 1) = 2 ^ 63 - 1 ∧
    (NewStack.Add funcA, 1) ∈ (visits 9 hugeLeafGraph NewStack hugeLeafGraph.Root).1 ∧
    weigh (NewStack.Add funcA) (hugeLeafGraph.node 1) = some (-(2 ^ 63)) ∧
    own hugeLeafGraph (NewStack.Add funcA) 1 = [] ∧
    createStaticProfile 9 hugeLeafGraph (NewStack.Add funcA) 1 [] = Outcome.ok [] := by
  decide

/-- C7, amended: in the walk `run` starts at the root (which has no syntax), a
visit to a node without outgoing edges whose body size `S` is unavailable
(taken as 0) or non-negative, with `S / max 1 L + 1` within `int64` at the
path length `L`, appends exactly one sample, whose frames are the path and
whose count is `S / max 1 L + 1`, at least 1; the count is exactly 1 when the
size is unavailable. -/
theorem C7_leaf_sample (g : Graph) (fuel : Nat) (hroot : (g.node g.Root).Fn.Syn = none) :
    ∀ p ∈ (visits fuel g NewStack g.Root).1,
      (g.node p.2).Out = [] → 0 ≤ bodySize (g.node p.2) →
      bodySize (g.node p.2) / max 1 (p.1.stack.length : Int) + 1 < 2 ^ 63 →
      ∃ count,
        (∀ fuel1 out, createStaticProfile (fuel1 + 1) g p.1 p.2 out
          = Outcome.ok (out ++ [{ Frames := p.1.stack, Count := count }])) ∧
        own g p.1 p.2 = [{ Frames := p.1.stack, Count := count }] ∧
        1 ≤ count ∧
        count = bodySize (g.node p.2) / max 1 (p.1.stack.length : Int) + 1 ∧
        ((g.node p.2).Fn.Syn = none → count = 1) := by
  intro p hp hleaf hS0 hS1
  have hdiv := visits_divisor g fuel hroot p hp
  obtain ⟨count, hw, h1, h2, h3⟩ := weigh_leaf p.1 (g.node p.2) hleaf hdiv hS0 hS1
  have hpos : 0 < count := by omega
  refine ⟨count, ?_, ?_, h1, ?_, h3⟩
  · intro fuel1 out
    exact walk_leaf g fuel1 p.1 p.2 out count hleaf hw hpos
  · have hpos2 : count > 0 := hpos
    simp [own, hw, emit, hpos2]
  · by_cases hL : 1 ≤ p.1.stack.length
    · have hmax : max 1 (p.1.stack.length : Int) = (p.1.stack.length : Int) :=
        max_eq_right (by omega)
      rw [hmax]
      exact h2 hL
    · rcases hdiv with h | h
      · exact absurd h hL
      · rw [h3 h]
        simp [bodySize, h]

/-- Witness of C7 on `recursiveGraph`: the leaf `B` visited with the path
`[A, B]`. -/
theorem C7_witness :
    ∃ count, createStaticProfile 1 recursiveGraph ((NewStack.Add funcA).Add funcB) 2 []
        = Outcome.ok ([] ++ [{ Frames := ((NewStack.Add funcA).Add funcB).stack,
                               Count := count }]) ∧ count = 1 := by
  obtain ⟨count, h1, _, _, _, h5⟩ := C7_leaf_sample recursiveGraph 9 (by decide)
    ((NewStack.Add funcA).Add funcB, 2) (by decide) (by decide) (by decide) (by decide)
  exact ⟨count, h1 0 [], h5 (by decide)⟩

/-- C8: no sample of a walk started with the empty stack has a frame with
`Name = "init"` and empty `Receiver`, whatever its `PkgPath`; the loop skips an
edge whose callee has such an identity without making the recursive call, so
nothing is visited through that edge; and an edge to a method named `init`
(non-empty receiver) that is not yet on the path is followed: the recursive
call is made with the extended path. -/
theorem C8_init_elided (g : Graph) (fuel : Nat) :
    (∀ out, runWalk fuel g = Outcome.ok out →
      ∀ smp ∈ out, ∀ f ∈ smp.Frames, ¬ (f.Name = "init" ∧ f.Receiver = "")) ∧
    (∀ (s : Stack) (callee : NodeId) (rest : List NodeId) (out : List Sample) (fn : Func),
      NewFunc (g.node callee) = some fn →
      (fn.Name = "init" ∧ fn.Receiver = "") →
      forOut (createStaticProfile fuel g) g s (callee :: rest) out
        = forOut (createStaticProfile fuel g) g s rest out ∧
      forOutVisits (visits fuel g) g s (callee :: rest)
        = forOutVisits (visits fuel g) g s rest) ∧
    (∀ (s : Stack) (callee : NodeId) (rest : List NodeId) (out : List Sample) (fn : Func),
      NewFunc (g.node callee) = some fn →
      fn.Name = "init" → fn.Receiver ≠ "" → fn ∉ s.seen →
      forOut (createStaticProfile fuel g) g s (callee :: rest) out
        = (match createStaticProfile fuel g (s.Add fn) callee out with
          | Outcome.ok out => forOut (createStaticProfile fuel g) g s rest out
          | Outcome.crash => Outcome.crash
          | Outcome.outOfFuel => Outcome.outOfFuel) ∧
      (s.Add fn, callee)
        ∈ (forOutVisits (visits (fuel + 1) g) g s (callee :: rest)).1) := by
  refine ⟨?_, ?_, ?_⟩
  · intro out h smp hsmp f hf
    obtain ⟨p, hp, hfr, _, _⟩ := runWalk_samples g fuel out h smp hsmp
    rw [hfr] at hf
    exact visits_no_init g fuel p hp f hf
  · intro s callee rest out fn hfn hi
    exact ⟨forOut_skip_init _ g s callee rest out fn hfn hi,
      forOutVisits_skip_init _ g s callee rest fn hfn hi⟩
  · intro s callee rest out fn hfn hname hrecv hseen
    have hi : ¬ isInit fn := fun h => hrecv h.2
    refine ⟨forOut_descend _ g s callee rest out fn hfn hi hseen, ?_⟩
    rw [forOutVisits_descend _ g s callee rest fn hfn hi hseen]
    obtain ⟨tail, htail, _⟩ := visits_head_tail g fuel (s.Add fn) callee
    by_cases hb : (visits (fuel + 1) g (s.Add fn) callee).2 = true
    · simp [hb, htail]
    · simp [hb, htail]

/-- Witness of C8 on `initGraph`: the function `init` and the method `init`
both call `work`; only the method and the `work` below it are sampled. -/
theorem C8_witness :
    runWalk 9 initGraph
      = Outcome.ok [{ Frames := [funcInitMethod], Count := 10 },
          { Frames := [funcInitMethod, funcWork], Count := 1 }] ∧
    ∀ smp ∈ [({ Frames := [funcInitMethod], Count := 10 } : Sample),
        { Frames := [funcInitMethod, funcWork], Count := 1 }],
      ∀ f ∈ smp.Frames, ¬ (f.Name = "init" ∧ f.Receiver = "") :=
  ⟨by decide, (C8_init_elided initGraph 9).1 _ (by decide)⟩

/-- C9, counterexample: on `recursiveGraph` (edges `root -> A`, `A -> A`,
`A -> B`, sizes 40 for `A` and none for `root` and `B`) the walk of `run`
yields the frames `[A]` with count 40 and `[A, B]` with count 1, not
`[root, A]` with count 20 and `[root, A, B]` with count 1; and when the root
has an empty body instead of none (`emptyBodyRecursiveGraph`) it panics. -/
theorem C9_counterexample :
    runWalk 9 recursiveGraph
      = Outcome.ok [{ Frames := [funcA], Count := 40 }, { Frames := [funcA, funcB], Count := 1 }] ∧
    (∃ root, NewFunc (recursiveGraph.node 0) = some root ∧
      runWalk 9 recursiveGraph
        ≠ Outcome.ok [{ Frames := [root, funcA], Count := 20 },
            { Frames := [root, funcA, funcB], Count := 1 }]) ∧
    runWalk 9 emptyBodyRecursiveGraph = Outcome.crash :=
  ⟨by decide, ⟨_, rfl, by decide⟩, by decide⟩

/-- C9, amended: for a call graph with the edges `root -> A`, `A -> A`,
`A -> B` where the root has no syntax, `A` has body size 40, `B` has body size
0 and no outgoing edges, and `A` and `B` have distinct identities other than
the plain `init`, the walk started as `run` starts it yields exactly two
samples, in this order: frames `[A]` with count 40 (`A` is weighed at path
length 1), then frames `[A, B]` with count 1. The root has no sample of its
own and its identity is on no path; the edge `A -> A` is skipped. -/
theorem C9_recursive_example (g : Graph) (a b : NodeId) (fuel : Nat)
    (hroot : (g.node g.Root).Out = [a]) (hrootSyn : (g.node g.Root).Fn.Syn = none)
    (hA : (g.node a).Out = [a, b]) (hAsize : bodySize (g.node a) = 40)
    (hB : (g.node b).Out = []) (hBsize : bodySize (g.node b) = 0)
    (fa fb : Func) (hfa : NewFunc (g.node a) = some fa) (hfb : NewFunc (g.node b) = some fb)
    (hAi : ¬ isInit fa) (hBi : ¬ isInit fb) (hAB : fa ≠ fb) :
    runWalk (fuel + 3) g
      = Outcome.ok [{ Frames := [fa], Count := 40 },
          { Frames := [fa, fb], Count := 1 }] ∧
    own g NewStack g.Root = [] ∧
    (∀ out, forOut (createStaticProfile (fuel + 1) g) g (NewStack.Add fa)
        [a, b] out
      = forOut (createStaticProfile (fuel + 1) g) g (NewStack.Add fa)
        [b] out) := by
  have hAseen : fa ∈ (NewStack.Add fa).seen := by
    rw [Stack.mem_Add_seen]; exact Or.inl rfl
  have hBseen : fb ∉ (NewStack.Add fa).seen := by
    rw [Stack.mem_Add_seen]
    rintro (h | h)
    · exact hAB h.symm
    · simp [NewStack] at h
  have hskip : ∀ out, forOut (createStaticProfile (fuel + 1) g) g
      (NewStack.Add fa) [a, b] out
      = forOut (createStaticProfile (fuel + 1) g) g (NewStack.Add fa)
        [b] out := fun out => forOut_skip_seen _ g _ a [b] out fa hfa hAseen
  have hwroot : weigh NewStack (g.node g.Root) = some 0 := by
    rw [weigh_of_noSyn NewStack (g.node g.Root) hrootSyn]; simp [hroot]
  have hwA : weigh (NewStack.Add fa) (g.node a) = some 40 := by
    rw [weigh_of_pos _ (g.node a) (by rw [Stack.Add_length]; omega) (by omega)
      (by rw [hAsize, hA, Stack.Add_length]; simp [NewStack]), hAsize, Stack.Add_length]
    simp [hA, NewStack]
  have hwB : weigh ((NewStack.Add fa).Add fb) (g.node b)
      = some 1 := by
    rw [weigh_of_pos _ (g.node b) (by rw [Stack.Add_length]; omega) (by omega)
      (by rw [hBsize, hB]; simp), hBsize]
    simp [hB]
  have hBwalk := walk_leaf g fuel ((NewStack.Add fa).Add fb)
    b [{ Frames := (NewStack.Add fa).stack, Count := 40 }] 1 hB hwB
    (by omega)
  have hAwalk : createStaticProfile (fuel + 2) g (NewStack.Add fa) a []
      = Outcome.ok [{ Frames := [fa], Count := 40 },
          { Frames := [fa, fb], Count := 1 }] := by
    rw [createStaticProfile_succ, hwA]
    have h8 : ¬ ((NewStack.Add fa).stack.length ≥ 8) := by
      rw [Stack.Add_length]; simp [NewStack]
    simp only [h8, if_false, hA]
    rw [hskip, forOut_descend _ g _ b [] _ fb hfb hBi hBseen]
    have he : emit (NewStack.Add fa) 40 []
        = [{ Frames := (NewStack.Add fa).stack, Count := 40 }] := by
      simp [emit]
    rw [he, hBwalk]
    simp [forOut, Stack.Add_stack, NewStack]
  refine ⟨?_, ?_, hskip⟩
  · unfold runWalk
    rw [createStaticProfile_succ, hwroot]
    have h8 : ¬ (NewStack.stack.length ≥ 8) := by simp [NewStack]
    have he : emit NewStack 0 [] = [] := by simp [emit]
    simp only [h8, if_false, hroot, he]
    rw [forOut_descend _ g _ a [] _ fa hfa hAi (by simp [NewStack]), hAwalk]
    simp [forOut]
  · simp [own, hwroot, emit]

/-- Witness of C9 on `recursiveGraph`. -/
theorem C9_witness :
    runWalk 4 recursiveGraph
      = Outcome.ok [{ Frames := [funcA], Count := 40 },
          { Frames := [funcA, funcB], Count := 1 }] :=
  (C9_recursive_example recursiveGraph 1 2 1 (by decide) (by decide) (by decide) (by decide)
    (by decide) (by decide) funcA funcB (by decide) (by decide) (by decide) (by decide)
    (by decide)).1

/-- C10, counterexample: on `leafRootGraph`, whose root has no outgoing edges
and body size 0 (no syntax), the walk of `run` yields one sample with count 1
whose frames are empty, not `[root]`. -/
theorem C10_counterexample :
    (leafRootGraph.node leafRootGraph.Root).Out = [] ∧
    bodySize (leafRootGraph.node leafRootGraph.Root) = 0 ∧
    runWalk 9 leafRootGraph = Outcome.ok [{ Frames := [], Count := 1 }] ∧
    ∃ root, NewFunc (leafRootGraph.node leafRootGraph.Root) = some root ∧
      runWalk 9 leafRootGraph ≠ Outcome.ok [{ Frames := [root], Count := 1 }] :=
  ⟨by decide, by decide, by decide, _, rfl, by decide⟩

/-- C10, amended: for a call graph whose root has no outgoing edges and no
syntax (body size 0), the walk started as `run` starts it yields exactly one
sample, with count 1 and no frames: the root itself is never put on the path.
The sample with the single frame `[f]` and count 1 is what a function `f`
without outgoing edges and of body size 0 gets when it is the only callee of
the root. -/
theorem C10_leaf_root (g : Graph) (fuel : Nat) (hleaf : (g.node g.Root).Out = [])
    (hsyn : (g.node g.Root).Fn.Syn = none) :
    runWalk (fuel + 1) g = Outcome.ok [{ Frames := [], Count := 1 }] ∧
    bodySize (g.node g.Root) = 0 ∧
    (∀ (g2 : Graph) (e : NodeId) (f : Func),
      (g2.node g2.Root).Fn.Syn = none → (g2.node g2.Root).Out = [e] →
      (g2.node e).Out = [] → bodySize (g2.node e) = 0 →
      NewFunc (g2.node e) = some f → ¬ isInit f →
      runWalk (fuel + 2) g2 = Outcome.ok [{ Frames := [f], Count := 1 }]) := by
  refine ⟨?_, by simp [bodySize, hsyn], ?_⟩
  · have hw : weigh NewStack (g.node g.Root) = some 1 := by
      rw [weigh_of_noSyn NewStack (g.node g.Root) hsyn]; simp [hleaf]
    have := walk_leaf g fuel NewStack g.Root [] 1 hleaf hw (by omega)
    simpa [runWalk, NewStack] using this
  · intro g2 e f hsyn2 hroot2 hE hEsize hf hi
    have hwroot : weigh NewStack (g2.node g2.Root) = some 0 := by
      rw [weigh_of_noSyn NewStack (g2.node g2.Root) hsyn2]; simp [hroot2]
    have hwE : weigh (NewStack.Add f) (g2.node e) = some 1 := by
      rw [weigh_of_pos _ (g2.node e) (by rw [Stack.Add_length]; omega) (by omega)
        (by rw [hEsize, hE]; simp), hEsize]
      simp [hE]
    have hEwalk := walk_leaf g2 fuel (NewStack.Add f) e [] 1 hE hwE (by omega)
    unfold runWalk
    rw [createStaticProfile_succ, hwroot]
    have h8 : ¬ (NewStack.stack.length ≥ 8) := by simp [NewStack]
    have he : emit NewStack 0 [] = [] := by simp [emit]
    simp only [h8, if_false, hroot2, he]
    rw [forOut_descend _ g2 _ e [] _ f hf hi (by simp [NewStack]), hEwalk]
    simp [forOut, Stack.Add_stack, NewStack]

/-- Witness of C10 on `leafRootGraph`. -/
theorem C10_witness :
    runWalk 1 leafRootGraph = Outcome.ok [{ Frames := [], Count := 1 }] :=
  (C10_leaf_root leafRootGraph 0 (by decide) (by decide)).1

/-! ## The path tracker: claims -/

theorem Stack.Add_seen (s : Stack) (fn : Func) : (s.Add fn).seen = insert fn s.seen := by
  ext x
  rw [Stack.mem_Add_seen, Finset.mem_insert]

theorem Memory.load_AddMem (m : Memory) (r : StackRef) (fn : Func) :
    (AddMem m r fn).1.load (AddMem m r fn).2 = (m.load r).Add fn := by
  simp [AddMem, Memory.load, Stack.Add, List.getD_eq_getElem?_getD]

theorem Memory.load_frame (m : Memory) (r : StackRef) (fn : Func) (h : m.Holds r) :
    (AddMem m r fn).1.load r = m.load r := by
  obtain ⟨hseen, harr⟩ := h
  have hm : (m.maps ++ [Multiset.foldr insert {fn} (m.load r).seen.val]).getD r.seen ∅
      = m.maps.getD r.seen ∅ := by
    simp [List.getD_eq_getElem?_getD, List.getElem?_append_left hseen]
  cases ha : r.array with
  | none => simp [AddMem, Memory.load, ha, List.getD_eq_getElem?_getD,
      List.getElem?_append_left hseen]
  | some a =>
    rw [ha] at harr
    simp [AddMem, Memory.load, ha, List.getD_eq_getElem?_getD,
      List.getElem?_append_left hseen, List.getElem?_append_left harr.1]

/-- C14: `s.Add(fn)` returns a stack whose `stack` is `s.stack` with `fn`
appended as the last element (one longer, the earlier elements in place) and
whose `seen` is `s.seen` plus `fn`. In memory the call allocates a new backing
array and a new map and writes to these only: every array and map that existed
before holds what it held, and `s` denotes the same stack after the call. -/
theorem C14_Add_result_and_frame (s : Stack) (fn : Func) :
    ((s.Add fn).stack = s.stack ++ [fn] ∧
      (s.Add fn).stack.length = s.stack.length + 1 ∧
      (∀ i, i < s.stack.length → (s.Add fn).stack[i]? = s.stack[i]?) ∧
      (s.Add fn).stack[s.stack.length]? = some fn ∧
      (s.Add fn).seen = insert fn s.seen) ∧
    (∀ (m : Memory) (r : StackRef), m.Holds r → m.load r = s →
      (AddMem m r fn).1.load (AddMem m r fn).2 = s.Add fn ∧
      (AddMem m r fn).1.load r = s ∧
      (∀ a, a < m.arrays.length → (AddMem m r fn).1.arrays[a]? = m.arrays[a]?) ∧
      (∀ a, a < m.maps.length → (AddMem m r fn).1.maps[a]? = m.maps[a]?)) := by
  refine ⟨⟨Stack.Add_stack s fn, Stack.Add_length s fn, ?_, ?_, Stack.Add_seen s fn⟩, ?_⟩
  · intro i hi
    rw [Stack.Add_stack, List.getElem?_append_left hi]
  · rw [Stack.Add_stack]
    simp
  · intro m r hr hs
    refine ⟨?_, ?_, ?_, ?_⟩
    · rw [Memory.load_AddMem, hs]
    · rw [Memory.load_frame m r fn hr, hs]
    · intro a ha
      simp [AddMem, List.getElem?_append_left ha]
    · intro a ha
      simp [AddMem, List.getElem?_append_left ha]

/-- Witness of C14: adding `B` to the stack `[A]` of `oneStackMemory` yields
`[A, B]` in a new array and leaves the stack `[A]` in place. -/
theorem C14_witness :
    ((AddMem oneStackMemory oneStackRef funcB).1.load
        (AddMem oneStackMemory oneStackRef funcB).2).stack = [funcA, funcB] ∧
    ((AddMem oneStackMemory oneStackRef funcB).1.load oneStackRef).stack = [funcA] := by
  have h := (C14_Add_result_and_frame (oneStackMemory.load oneStackRef) funcB).2
    oneStackMemory oneStackRef (by simp [Memory.Holds, oneStackMemory, oneStackRef]) rfl
  refine ⟨?_, ?_⟩
  · rw [h.1]; decide
  · rw [h.2.1]; decide

/-- C19: the stack built from `NewStack()` by any finite sequence of `Add`
calls holds the added identities in order, and its `seen` set holds exactly
the elements of its `stack`; so the test of the recursion guard, membership in
`seen`, answers whether the identity is on the path. -/
theorem C19_seen_is_stack (fns : List Func) :
    (fns.foldl Stack.Add NewStack).stack = fns ∧
    (∀ fn, fn ∈ (fns.foldl Stack.Add NewStack).seen ↔ fn ∈ (fns.foldl Stack.Add NewStack).stack) ∧
    (∀ fn, decide (fn ∈ (fns.foldl Stack.Add NewStack).seen) = decide (fn ∈ fns)) := by
  have key : ∀ (l : List Func) (s : Stack), (∀ fn, fn ∈ s.seen ↔ fn ∈ s.stack) →
      (l.foldl Stack.Add s).stack = s.stack ++ l ∧
      ∀ fn, fn ∈ (l.foldl Stack.Add s).seen ↔ fn ∈ (l.foldl Stack.Add s).stack := by
    intro l
    induction l with
    | nil => intro s hs; simpa using hs
    | cons a l ih =>
      intro s hs
      have hstep : ∀ fn, fn ∈ (s.Add a).seen ↔ fn ∈ (s.Add a).stack := by
        intro fn
        rw [Stack.mem_Add_seen, Stack.Add_stack, List.mem_append, List.mem_singleton, hs]
        exact or_comm
      obtain ⟨h1, h2⟩ := ih (s.Add a) hstep
      refine ⟨?_, h2⟩
      rw [List.foldl_cons, h1, Stack.Add_stack]
      simp
  obtain ⟨h1, h2⟩ := key fns NewStack (by simp [NewStack])
  have hst : (fns.foldl Stack.Add NewStack).stack = fns := by simpa [NewStack] using h1
  refine ⟨hst, h2, fun fn => ?_⟩
  exact decide_eq_decide.2 ((h2 fn).trans (by rw [hst]))

/-! ## Rendering: lemmas and claims -/

theorem string_closed (f : Func) :
    f.String = (if f.PkgPath ≠ "" then f.PkgPath ++ "." else "")
      ++ (if f.Receiver ≠ "" then "(" ++ f.Receiver ++ ")." else "") ++ f.Name := by
  unfold Func.String
  by_cases hp : f.PkgPath = "" <;> by_cases hr : f.Receiver = "" <;>
    simp [hp, hr, String.append_assoc]

theorem string_data (f : Func) : f.String.data = qualifier f ++ f.Name.data := by
  rw [string_closed, qualifier, pkgPart, recvPart]
  by_cases hp : f.PkgPath = "" <;> by_cases hr : f.Receiver = "" <;>
    simp [hp, hr, String.data_append]

theorem string_eq_empty_iff (s : String) : s = "" ↔ s.data = [] := by
  constructor
  · intro h; rw [h]
  · intro h; exact String.ext h

theorem split_first (c : Char) : ∀ (a b x y : List Char), c ∉ a → c ∉ b →
    a ++ c :: x = b ++ c :: y → a = b ∧ x = y := by
  intro a
  induction a with
  | nil =>
    intro b x y _ hb h
    cases b with
    | nil => simpa using h
    | cons d b =>
      simp only [List.nil_append, List.cons_append, List.cons.injEq] at h
      exact absurd (by rw [h.1]; exact List.mem_cons_self _ _) hb
  | cons e a ih =>
    intro b x y ha hb h
    cases b with
    | nil =>
      simp only [List.nil_append, List.cons_append, List.cons.injEq] at h
      exact absurd (by rw [h.1]; exact List.mem_cons_self _ _) ha
    | cons d b =>
      simp only [List.cons_append, List.cons.injEq] at h
      obtain ⟨h1, h2⟩ := ih b x y (fun hc => ha (List.mem_cons_of_mem _ hc))
        (fun hc => hb (List.mem_cons_of_mem _ hc)) h.2
      exact ⟨by rw [h.1, h1], h2⟩

theorem split_last (c : Char) (a b x y : List Char) (hx : c ∉ x) (hy : c ∉ y)
    (h : a ++ c :: x = b ++ c :: y) : a = b ∧ x = y := by
  have hr := congrArg List.reverse h
  simp only [List.reverse_append, List.reverse_cons, List.append_assoc, List.singleton_append]
    at hr
  obtain ⟨h1, h2⟩ := split_first c x.reverse y.reverse a.reverse b.reverse
    (by simpa using hx) (by simpa using hy) hr
  exact ⟨List.reverse_injective h2, List.reverse_injective h1⟩

theorem qualifier_shape (f : Func) : qualifier f = [] ∨ ∃ X, qualifier f = X ++ ['.'] := by
  unfold qualifier pkgPart recvPart
  by_cases hp : f.PkgPath = "" <;> by_cases hr : f.Receiver = ""
  · left; simp [hp, hr]
  · right; exact ⟨'(' :: f.Receiver.data ++ [')'], by simp [hp, hr]⟩
  · right; exact ⟨f.PkgPath.data, by simp [hp, hr]⟩
  · right; exact ⟨f.PkgPath.data ++ ['.'] ++ ('(' :: f.Receiver.data ++ [')']), by simp [hp, hr]⟩

theorem name_split (f g : Func) (hf : '.' ∉ f.Name.data) (hg : '.' ∉ g.Name.data)
    (h : qualifier f ++ f.Name.data = qualifier g ++ g.Name.data) :
    qualifier f = qualifier g ∧ f.Name.data = g.Name.data := by
  rcases qualifier_shape f with h1 | ⟨X, h1⟩ <;> rcases qualifier_shape g with h2 | ⟨Y, h2⟩
  · rw [h1, h2] at h ⊢; exact ⟨rfl, by simpa using h⟩
  · rw [h1, h2] at h
    simp only [List.nil_append, List.append_assoc, List.singleton_append] at h
    exact absurd (by rw [h]; simp) hf
  · rw [h1, h2] at h
    simp only [List.nil_append, List.append_assoc, List.singleton_append] at h
    exact absurd (by rw [← h]; simp) hg
  · rw [h1, h2] at h ⊢
    simp only [List.append_assoc, List.singleton_append] at h
    obtain ⟨hx, hn⟩ := split_last '.' X Y _ _ hf hg h
    exact ⟨by rw [hx], hn⟩

theorem pkgPart_inj (p q : String) (h : pkgPart p = pkgPart q) : p = q := by
  unfold pkgPart at h
  by_cases hp : p = "" <;> by_cases hq : q = ""
  · rw [hp, hq]
  · simp [hp, hq] at h
  · simp [hp, hq] at h
  · simp only [hp, hq, if_false] at h
    exact String.ext (List.append_cancel_right h)

theorem recvPart_inj (p q : String) (h : recvPart p = recvPart q) : p = q := by
  unfold recvPart at h
  by_cases hp : p = "" <;> by_cases hq : q = ""
  · rw [hp, hq]
  · simp [hp, hq] at h
  · simp [hp, hq] at h
  · simp only [hp, hq, if_false, List.cons_append, List.cons.injEq, true_and] at h
    exact String.ext (List.append_cancel_right h)

theorem qualifier_inj (f g : Func) (hrf : '(' ∉ f.Receiver.data) (hrg : '(' ∉ g.Receiver.data)
    (hpf : ')' ∉ f.PkgPath.data) (hpg : ')' ∉ g.PkgPath.data)
    (h : qualifier f = qualifier g) : f.PkgPath = g.PkgPath ∧ f.Receiver = g.Receiver := by
  unfold qualifier at h
  -- a package part cannot end like a receiver part
  have clash : ∀ (p r : String) (z : List Char), ')' ∉ p.data → r ≠ "" →
      pkgPart p ≠ z ++ recvPart r := by
    intro p r z hp hr heq
    unfold pkgPart recvPart at heq
    by_cases hpe : p = ""
    · simp [hpe, hr] at heq
    · simp only [hpe, hr, if_false] at heq
      have : p.data ++ ['.'] = (z ++ '(' :: r.data ++ [')']) ++ ['.'] := by
        rw [heq]; simp
      have hp' := List.append_cancel_right this
      exact hp (by rw [hp']; simp)
  by_cases hf : f.Receiver = "" <;> by_cases hg : g.Receiver = ""
  · have h' : pkgPart f.PkgPath = pkgPart g.PkgPath := by
      simpa [recvPart, hf, hg] using h
    exact ⟨pkgPart_inj _ _ h', by rw [hf, hg]⟩
  · have h' : pkgPart f.PkgPath = pkgPart g.PkgPath ++ recvPart g.Receiver := by
      simpa [recvPart, hf] using h
    exact absurd h' (clash _ _ _ hpf hg)
  · have h' : pkgPart g.PkgPath = pkgPart f.PkgPath ++ recvPart f.Receiver := by
      simpa [recvPart, hg] using h.symm
    exact absurd h' (clash _ _ _ hpg hf)
  · have hsplit : pkgPart f.PkgPath ++ '(' :: (f.Receiver.data ++ [')', '.'])
        = pkgPart g.PkgPath ++ '(' :: (g.Receiver.data ++ [')', '.']) := by
      simpa [recvPart, hf, hg] using h
    obtain ⟨h1, h2⟩ := split_last '(' _ _ _ _ (by simpa using hrf) (by simpa using hrg) hsplit
    exact ⟨pkgPart_inj _ _ h1, String.ext (List.append_cancel_right h2)⟩

theorem string_inj (f g : Func) (hf : f.Plain) (hg : g.Plain) (h : f.String = g.String) :
    f = g := by
  have hd : qualifier f ++ f.Name.data = qualifier g ++ g.Name.data := by
    rw [← string_data, ← string_data, h]
  obtain ⟨hq, hn⟩ := name_split f g hf.1 hg.1 hd
  obtain ⟨hp, hr⟩ := qualifier_inj f g hf.2.1 hg.2.1 hf.2.2 hg.2.2 hq
  cases f; cases g
  simp only [Func.mk.injEq]
  exact ⟨hp, hr, String.ext hn⟩

/-- C15, counterexample: the identities (`a`, no receiver, `b.c`) and (`a.b`,
no receiver, `c`) differ in `PkgPath` and in `Name` and both render as
`a.b.c`. -/
theorem C15_counterexample :
    ({ PkgPath := "a", Receiver := "", Name := "b.c" } : Func).PkgPath
      ≠ ({ PkgPath := "a.b", Receiver := "", Name := "c" } : Func).PkgPath ∧
    ({ PkgPath := "a", Receiver := "", Name := "b.c" } : Func)
      ≠ { PkgPath := "a.b", Receiver := "", Name := "c" } ∧
    ({ PkgPath := "a", Receiver := "", Name := "b.c" } : Func).String
      = ({ PkgPath := "a.b", Receiver := "", Name := "c" } : Func).String := by
  decide

/-- C15, amended: for identities whose `Name` contains no dot, whose
`Receiver` contains no opening parenthesis and whose `PkgPath` contains no
closing parenthesis, `String` is injective: two such identities that differ in
`PkgPath`, `Receiver` or `Name` render differently. -/
theorem C15_String_injective_on_plain (f g : Func) (hf : f.Plain) (hg : g.Plain)
    (hne : f.PkgPath ≠ g.PkgPath ∨ f.Receiver ≠ g.Receiver ∨ f.Name ≠ g.Name) :
    f.String ≠ g.String := by
  intro h
  have hfg := string_inj f g hf hg h
  subst hfg
  rcases hne with h1 | h1 | h1 <;> exact h1 rfl

/-- Witness of C15: the function `A` and the method `init` of `T`, both of
package `main`. -/
theorem C15_witness : funcA.String ≠ funcInitMethod.String :=
  C15_String_injective_on_plain funcA funcInitMethod (by unfold Func.Plain; decide)
    (by unfold Func.Plain; decide) (by decide)

/-- C16: `f.String()` is the concatenation of `PkgPath` followed by a dot when
`PkgPath` is not empty, of the `Receiver` between parentheses followed by a
dot when `Receiver` is not empty, and of `Name`; with both empty it is
`Name`. -/
theorem C16_String_concat (f : Func) :
    f.String = (if f.PkgPath ≠ "" then f.PkgPath ++ "." else "")
      ++ (if f.Receiver ≠ "" then "(" ++ f.Receiver ++ ")." else "") ++ f.Name ∧
    (f.PkgPath = "" → f.Receiver = "" → f.String = f.Name) := by
  refine ⟨string_closed f, fun hp hr => ?_⟩
  rw [string_closed f]
  simp [hp, hr]

/-! ## The encoder -/

theorem uint64_succ (c : Nat) : uint64 (uint64 c + 1) = uint64 (c + 1) := by
  unfold uint64
  omega

theorem uint64_eq_self (c : Nat) (h : c < 2 ^ 64) : uint64 c = c := by
  unfold uint64
  omega

theorem frameLoop_eq (m : ProfileMapping) (frames : List Func) :
    ∀ (k : Nat) (st : Encoder × ProfileSample), k ≤ frames.length →
      frameLoop m frames k st
        = (frames.take k).reverse.foldl (fun st f => addFrame m f st) st := by
  intro k
  induction k with
  | zero => intro st _; simp [frameLoop]
  | succ k ih =>
    intro st hk
    have hlt : k < frames.length := by omega
    have hget : frames.getD k default = frames[k] := by
      simp [List.getD_eq_getElem?_getD, List.getElem?_eq_getElem hlt]
    have htake : frames.take (k + 1) = frames.take k ++ [frames[k]] := by
      rw [List.take_succ, List.getElem?_eq_getElem hlt]; rfl
    rw [frameLoop, hget, ih _ (by omega), htake, List.reverse_append, List.reverse_singleton,
      List.singleton_append, List.foldl_cons]

theorem functionsFrom_append (c : Nat) (a b : List Func) :
    functionsFrom c (a ++ b) = functionsFrom c a ++ functionsFrom (c + a.length) b := by
  induction a generalizing c with
  | nil => simp [functionsFrom]
  | cons f a ih =>
    have h := ih (c + 1)
    rw [show c + 1 + a.length = c + (f :: a).length by simp; omega] at h
    rw [List.cons_append, functionsFrom, functionsFrom, h, List.cons_append]

theorem locationsFrom_append (m : ProfileMapping) (c : Nat) (a b : List Func) :
    locationsFrom m c (a ++ b) = locationsFrom m c a ++ locationsFrom m (c + a.length) b := by
  induction a generalizing c with
  | nil => simp [locationsFrom]
  | cons f a ih =>
    have h := ih (c + 1)
    rw [show c + 1 + a.length = c + (f :: a).length by simp; omega] at h
    rw [List.cons_append, locationsFrom, locationsFrom, h, List.cons_append]

/-- The effect of the inner loop on the counters, the profile and the sample,
for frames visited in the order `fs`. -/
theorem foldl_addFrame (m : ProfileMapping) :
    ∀ (fs : List Func) (c : Nat) (e : Encoder) (smp : ProfileSample),
      e.functionID = uint64 c → e.locationID = uint64 c →
      (fs.foldl (fun st f => addFrame m f st) (e, smp)).1.functionID = uint64 (c + fs.length) ∧
      (fs.foldl (fun st f => addFrame m f st) (e, smp)).1.locationID = uint64 (c + fs.length) ∧
      (fs.foldl (fun st f => addFrame m f st) (e, smp)).1.p.Function
        = e.p.Function ++ functionsFrom c fs ∧
      (fs.foldl (fun st f => addFrame m f st) (e, smp)).1.p.Location
        = e.p.Location ++ locationsFrom m c fs ∧
      (fs.foldl (fun st f => addFrame m f st) (e, smp)).1.p.Sample = e.p.Sample ∧
      (fs.foldl (fun st f => addFrame m f st) (e, smp)).1.p.Mapping = e.p.Mapping ∧
      (fs.foldl (fun st f => addFrame m f st) (e, smp)).1.p.SampleType = e.p.SampleType ∧
      (fs.foldl (fun st f => addFrame m f st) (e, smp)).1.p.TimeNanos = e.p.TimeNanos ∧
      (fs.foldl (fun st f => addFrame m f st) (e, smp)).2.Location
        = smp.Location ++ locationsFrom m c fs ∧
      (fs.foldl (fun st f => addFrame m f st) (e, smp)).2.Value = smp.Value := by
  intro fs
  induction fs with
  | nil => intro c e smp h1 h2; simp [functionsFrom, locationsFrom, h1, h2]
  | cons f fs ih =>
    intro c e smp h1 h2
    have hstep := ih (c + 1) (addFrame m f (e, smp)).1 (addFrame m f (e, smp)).2
      (by simp [addFrame, h1, uint64_succ]) (by simp [addFrame, h2, uint64_succ])
    obtain ⟨g1, g2, g3, g4, g5, g6, g7, g8, g9, g10⟩ := hstep
    simp only [List.foldl_cons, List.length_cons]
    rw [show c + (fs.length + 1) = c + 1 + fs.length by omega]
    refine ⟨g1, g2, ?_, ?_, ?_, ?_, ?_, ?_, ?_, ?_⟩
    · rw [g3]; simp [addFrame, functionsFrom, h1]
    · rw [g4]; simp [addFrame, locationsFrom, h1, h2]
    · rw [g5]; simp [addFrame]
    · rw [g6]; simp [addFrame]
    · rw [g7]; simp [addFrame]
    · rw [g8]; simp [addFrame]
    · rw [g9]; simp [addFrame, locationsFrom, h1, h2]
    · rw [g10]; simp [addFrame]

theorem frameSeq_cons (s : Sample) (rest : List Sample) :
    frameSeq (s :: rest) = s.Frames.reverse ++ frameSeq rest := by
  simp [frameSeq]

theorem frameSeq_length (samples : List Sample) :
    (frameSeq samples).length = totalFrames samples := by
  induction samples with
  | nil => simp [frameSeq, totalFrames]
  | cons s rest ih =>
    rw [frameSeq_cons, List.length_append, ih]
    simp [totalFrames]

/-- The effect of the outer loop on the counters and the profile. -/
theorem sampleLoop_eq (m : ProfileMapping) :
    ∀ (samples : List Sample) (c : Nat) (e : Encoder),
      e.functionID = uint64 c → e.locationID = uint64 c →
      (sampleLoop m samples e).p.Function = e.p.Function ++ functionsFrom c (frameSeq samples) ∧
      (sampleLoop m samples e).p.Location
        = e.p.Location ++ locationsFrom m c (frameSeq samples) ∧
      (sampleLoop m samples e).p.Sample = e.p.Sample ++ samplesFrom m c samples ∧
      (sampleLoop m samples e).p.Mapping = e.p.Mapping ∧
      (sampleLoop m samples e).p.SampleType = e.p.SampleType ∧
      (sampleLoop m samples e).p.TimeNanos = e.p.TimeNanos := by
  intro samples
  induction samples with
  | nil => intro c e _ _; simp [sampleLoop, frameSeq, functionsFrom, locationsFrom, samplesFrom]
  | cons s rest ih =>
    intro c e h1 h2
    have hloop := frameLoop_eq m s.Frames s.Frames.length
      (e, { Value := [s.Count], Location := [] }) (le_refl _)
    rw [List.take_length] at hloop
    obtain ⟨g1, g2, g3, g4, g5, g6, g7, g8, g9, g10⟩ :=
      foldl_addFrame m s.Frames.reverse c e { Value := [s.Count], Location := [] } h1 h2
    rw [← hloop] at g1 g2 g3 g4 g5 g6 g7 g8 g9 g10
    rw [List.length_reverse] at g1 g2
    obtain ⟨k1, k2, k3, k4, k5, k6⟩ := ih (c + s.Frames.length)
      { (frameLoop m s.Frames s.Frames.length
          (e, { Value := [s.Count], Location := [] })).1 with
        p := { (frameLoop m s.Frames s.Frames.length
            (e, { Value := [s.Count], Location := [] })).1.p with
          Sample := (frameLoop m s.Frames s.Frames.length
              (e, { Value := [s.Count], Location := [] })).1.p.Sample
            ++ [(frameLoop m s.Frames s.Frames.length
              (e, { Value := [s.Count], Location := [] })).2] } }
      g1 g2
    simp only [sampleLoop]
    refine ⟨?_, ?_, ?_, ?_, ?_, ?_⟩
    · rw [k1, frameSeq_cons, functionsFrom_append, List.length_reverse]
      simp only [g3, List.append_assoc]
    · rw [k2, frameSeq_cons, locationsFrom_append, List.length_reverse]
      simp only [g4, List.append_assoc]
    · rw [k3]
      simp only [g5, samplesFrom, List.append_assoc, List.singleton_append]
      congr 2
      cases hst : (frameLoop m s.Frames s.Frames.length
        (e, { Value := [s.Count], Location := [] })).2 with
      | mk loc val =>
        rw [hst] at g9 g10
        simp only [List.nil_append] at g9
        simp only at g10
        rw [g9, g10]
    · rw [k4]; exact g6
    · rw [k5]; exact g7
    · rw [k6]; exact g8

/-- The document `run` builds, field by field. -/
theorem encode_eq (now : Int) (samples : List Sample) :
    (encode now samples).Function = functionsFrom 1 (frameSeq samples) ∧
    (encode now samples).Location
      = locationsFrom { ID := 1, HasFunctions := true } 1 (frameSeq samples) ∧
    (encode now samples).Sample = samplesFrom { ID := 1, HasFunctions := true } 1 samples ∧
    (encode now samples).Mapping = [{ ID := 1, HasFunctions := true }] ∧
    (encode now samples).SampleType = [{ Kind := "calls", Unit := "count" }] ∧
    (encode now samples).TimeNanos = now := by
  obtain ⟨k1, k2, k3, k4, k5, k6⟩ := sampleLoop_eq { ID := 1, HasFunctions := true } samples 1
    { functionID := uint64 1, locationID := uint64 1,
      p := { SampleType := [{ Kind := "calls", Unit := "count" }], Sample := [],
             Mapping := [{ ID := 1, HasFunctions := true }], Location := [], Function := [],
             TimeNanos := now } } rfl rfl
  simp only [encode]
  exact ⟨by simpa using k1, by simpa using k2, by simpa using k3, k4, k5, k6⟩

theorem functionsFrom_length (c : Nat) (fs : List Func) :
    (functionsFrom c fs).length = fs.length := by
  induction fs generalizing c with
  | nil => rfl
  | cons f fs ih => simp [functionsFrom, ih]

theorem locationsFrom_eq_map (m : ProfileMapping) (c : Nat) (fs : List Func) :
    locationsFrom m c fs = (functionsFrom c fs).map
      (fun fn => { ID := fn.ID, Mapping := m, Line := [{ Function := fn, Line := 1 }] }) := by
  induction fs generalizing c with
  | nil => rfl
  | cons f fs ih => simp [functionsFrom, locationsFrom, ih]

theorem functionsFrom_ids (c : Nat) (fs : List Func) :
    (functionsFrom c fs).map (fun f => f.ID) = (List.range' c fs.length).map uint64 := by
  induction fs generalizing c with
  | nil => rfl
  | cons f fs ih => simp [functionsFrom, ih, List.range'_succ]

theorem functionsFrom_getElem? (c : Nat) (fs : List Func) (j : Nat) :
    (functionsFrom c fs)[j]? = fs[j]?.map
      (fun f => { ID := uint64 (c + j), Name := f.String, Filename := "main.go" }) := by
  induction fs generalizing c j with
  | nil => simp [functionsFrom]
  | cons f fs ih =>
    cases j with
    | zero => simp [functionsFrom]
    | succ j =>
      simp only [functionsFrom, List.getElem?_cons_succ, ih]
      rw [show c + 1 + j = c + (j + 1) by omega]

/-- Counters that stay below `2 ^ 64` give the IDs `c, c + 1, ...`: pairwise
distinct and, from `c ≥ 1` on, non-zero. -/
theorem ids_nodup (c n : Nat) (hc : 1 ≤ c) (h : c + n ≤ 2 ^ 64) :
    (List.range' c n).map uint64 = List.range' c n ∧
    ((List.range' c n).map uint64).Nodup ∧ 0 ∉ (List.range' c n).map uint64 := by
  have heq : (List.range' c n).map uint64 = List.range' c n := by
    rw [← List.map_id (List.range' c n)]
    rw [List.map_map]
    apply List.map_congr_left
    intro a ha
    obtain ⟨i, hi, rfl⟩ := List.mem_range'.1 ha
    simp only [Function.comp, id]
    exact uint64_eq_self _ (by omega)
  refine ⟨heq, ?_, ?_⟩
  · rw [heq]; exact List.nodup_range' c n
  · rw [heq]
    intro h0
    obtain ⟨i, _, hi⟩ := List.mem_range'.1 h0
    omega

theorem samplesFrom_length (m : ProfileMapping) (c : Nat) (samples : List Sample) :
    (samplesFrom m c samples).length = samples.length := by
  induction samples generalizing c with
  | nil => rfl
  | cons s rest ih => simp [samplesFrom, ih]

theorem samplesFrom_values (m : ProfileMapping) (c : Nat) (samples : List Sample) :
    (samplesFrom m c samples).map (fun ds => ds.Value) = samples.map (fun s => [s.Count]) := by
  induction samples generalizing c with
  | nil => rfl
  | cons s rest ih => simp [samplesFrom, ih]

theorem samplesFrom_mem (m : ProfileMapping) (c : Nat) (samples : List Sample) :
    ∀ smp ∈ samplesFrom m c samples, smp.Value.length = 1 ∧
      ∀ loc ∈ smp.Location, loc ∈ locationsFrom m c (frameSeq samples) := by
  induction samples generalizing c with
  | nil => intro smp h; simp [samplesFrom] at h
  | cons s rest ih =>
    intro smp h
    rw [frameSeq_cons, locationsFrom_append, List.length_reverse]
    simp only [samplesFrom, List.mem_cons] at h
    rcases h with h | h
    · subst h
      exact ⟨rfl, fun loc hloc => List.mem_append_left _ hloc⟩
    · obtain ⟨h1, h2⟩ := ih (c + s.Frames.length) smp h
      exact ⟨h1, fun loc hloc => List.mem_append_right _ (h2 loc hloc)⟩

theorem samplesFrom_getElem? (m : ProfileMapping) (samples : List Sample) :
    ∀ (c k : Nat) (s : Sample), samples[k]? = some s →
      ∃ c', (samplesFrom m c samples)[k]?
        = some { Location := locationsFrom m c' s.Frames.reverse, Value := [s.Count] } := by
  induction samples with
  | nil => intro c k s h; simp at h
  | cons s0 rest ih =>
    intro c k s h
    cases k with
    | zero =>
      simp only [List.getElem?_cons_zero, Option.some.injEq] at h
      subst h
      exact ⟨c, by simp [samplesFrom]⟩
    | succ k =>
      simp only [List.getElem?_cons_succ] at h
      obtain ⟨c', hc'⟩ := ih (c + s0.Frames.length) k s h
      exact ⟨c', by simpa [samplesFrom] using hc'⟩

theorem locationsFrom_getElem? (m : ProfileMapping) (c : Nat) (fs : List Func) (i : Nat) :
    (locationsFrom m c fs)[i]? = fs[i]?.map
      (fun f => { ID := uint64 (c + i), Mapping := m,
                  Line := [{ Function := { ID := uint64 (c + i), Name := f.String,
                                           Filename := "main.go" },
                             Line := 1 }] }) := by
  rw [locationsFrom_eq_map, List.getElem?_map, functionsFrom_getElem?]
  cases fs[i]? <;> rfl

theorem locationsFrom_length (m : ProfileMapping) (c : Nat) (fs : List Func) :
    (locationsFrom m c fs).length = fs.length := by
  rw [locationsFrom_eq_map, List.length_map, functionsFrom_length]

/-- C11: the document the encoding loops build from any list of samples with
fewer than `2 ^ 64` frames in total (no counter wraps) is structurally valid:
every location of a document sample is in the location list, every function
of a location line is in the function list, the mapping list is the single
mapping with ID 1 and it is the mapping of every location, the function IDs
are pairwise distinct and non-zero, so are the location IDs, and every value
vector has length 1, the length of the sample-type list; the validity check
succeeds. -/
theorem C11_document_valid (now : Int) (samples : List Sample)
    (h : totalFrames samples < 2 ^ 64) :
    (∀ smp ∈ (encode now samples).Sample, ∀ loc ∈ smp.Location,
      loc ∈ (encode now samples).Location) ∧
    (∀ loc ∈ (encode now samples).Location, ∀ ln ∈ loc.Line,
      ln.Function ∈ (encode now samples).Function) ∧
    (encode now samples).Mapping = [{ ID := 1, HasFunctions := true }] ∧
    (∀ loc ∈ (encode now samples).Location, loc.Mapping = { ID := 1, HasFunctions := true }) ∧
    ((encode now samples).Function.map (fun f => f.ID)).Nodup ∧
    0 ∉ (encode now samples).Function.map (fun f => f.ID) ∧
    ((encode now samples).Location.map (fun l => l.ID)).Nodup ∧
    0 ∉ (encode now samples).Location.map (fun l => l.ID) ∧
    (encode now samples).SampleType.length = 1 ∧
    (∀ smp ∈ (encode now samples).Sample,
      smp.Value.length = (encode now samples).SampleType.length) ∧
    CheckValid (encode now samples) = true := by
  obtain ⟨hF, hL, hS, hM, hT, _⟩ := encode_eq now samples
  have hN : 1 + (frameSeq samples).length ≤ 2 ^ 64 := by rw [frameSeq_length]; omega
  obtain ⟨_, hnd, h0⟩ := ids_nodup 1 (frameSeq samples).length (le_refl 1) hN
  have hFid : (encode now samples).Function.map (fun f => f.ID)
      = (List.range' 1 (frameSeq samples).length).map uint64 := by
    rw [hF, functionsFrom_ids]
  have hLid : (encode now samples).Location.map (fun l => l.ID)
      = (List.range' 1 (frameSeq samples).length).map uint64 := by
    rw [hL, locationsFrom_eq_map, List.map_map, ← functionsFrom_ids]
    rfl
  have c1 : ∀ smp ∈ (encode now samples).Sample, ∀ loc ∈ smp.Location,
      loc ∈ (encode now samples).Location := by
    intro smp hsmp loc hloc
    rw [hS] at hsmp
    rw [hL]
    exact (samplesFrom_mem _ 1 samples smp hsmp).2 loc hloc
  have c2 : ∀ loc ∈ (encode now samples).Location,
      loc.Mapping = { ID := 1, HasFunctions := true } ∧
      ∀ ln ∈ loc.Line, ln.Function ∈ (encode now samples).Function := by
    intro loc hloc
    rw [hL, locationsFrom_eq_map, List.mem_map] at hloc
    obtain ⟨fn, hfn, rfl⟩ := hloc
    refine ⟨rfl, ?_⟩
    intro ln hln
    simp only [List.mem_singleton] at hln
    rw [hln, hF]
    exact hfn
  have c3 : ∀ smp ∈ (encode now samples).Sample,
      smp.Value.length = (encode now samples).SampleType.length := by
    intro smp hsmp
    rw [hS] at hsmp
    rw [hT]
    exact (samplesFrom_mem _ 1 samples smp hsmp).1
  refine ⟨c1, fun loc hloc => (c2 loc hloc).2, hM, fun loc hloc => (c2 loc hloc).1,
    by rw [hFid]; exact hnd, by rw [hFid]; exact h0, by rw [hLid]; exact hnd,
    by rw [hLid]; exact h0, by rw [hT]; rfl, c3, ?_⟩
  unfold CheckValid
  rw [decide_eq_true_eq]
  refine ⟨fun smp hsmp => ⟨c3 smp hsmp, c1 smp hsmp⟩, fun loc hloc => ⟨?_, (c2 loc hloc).2⟩,
    ?_, ?_, by rw [hFid]; exact hnd, by rw [hFid]; exact h0, by rw [hLid]; exact hnd,
    by rw [hLid]; exact h0⟩
  · rw [(c2 loc hloc).1, hM]; simp
  · rw [hM]; simp
  · rw [hM]; simp

/-- Witness of C11 on the two samples of the walk of `recursiveGraph`. -/
theorem C11_witness : CheckValid (encode 0 recursiveSamples) = true :=
  (C11_document_valid 0 recursiveSamples (by decide)).2.2.2.2.2.2.2.2.2.2

/-- C12: the encoding loops produce one document sample per input sample, in
the same order; the `k`-th has the value vector `[Count]` of the `k`-th input
sample and as many locations as that sample has frames, and its `i`-th
location has a single line, with line number 1 and a function whose name is
the rendering of the frame at index `len - 1 - i`: the leaf frame comes first,
the root frame last. -/
theorem C12_samples_encoded (now : Int) (samples : List Sample) :
    (encode now samples).Sample.length = samples.length ∧
    ((encode now samples).Sample.map (fun ds => ds.Value)
      = samples.map (fun s => [s.Count])) ∧
    (∀ (k : Nat) (s : Sample), samples[k]? = some s →
      ∃ ds, (encode now samples).Sample[k]? = some ds ∧
        ds.Value = [s.Count] ∧
        ds.Location.length = s.Frames.length ∧
        ∀ i, i < s.Frames.length →
          ∃ loc f, ds.Location[i]? = some loc ∧
            s.Frames[s.Frames.length - 1 - i]? = some f ∧
            loc.Line.map (fun ln => (ln.Function.Name, ln.Line)) = [(f.String, 1)]) := by
  obtain ⟨_, _, hS, _, _, _⟩ := encode_eq now samples
  rw [hS]
  refine ⟨samplesFrom_length _ 1 samples, ?_, ?_⟩
  · exact samplesFrom_values _ 1 samples
  · intro k s hk
    obtain ⟨c', hc'⟩ := samplesFrom_getElem? { ID := 1, HasFunctions := true } samples 1 k s hk
    refine ⟨_, hc', rfl, ?_, ?_⟩
    · simp [locationsFrom_length]
    · intro i hi
      have hrev : s.Frames.reverse[i]? = s.Frames[s.Frames.length - 1 - i]? :=
        List.getElem?_reverse hi
      have hlt : s.Frames.length - 1 - i < s.Frames.length := by omega
      refine ⟨{ ID := uint64 (c' + i), Mapping := { ID := 1, HasFunctions := true },
                Line := [{ Function := { ID := uint64 (c' + i),
                                         Name := (s.Frames[s.Frames.length - 1 - i]).String,
                                         Filename := "main.go" },
                           Line := 1 }] },
        s.Frames[s.Frames.length - 1 - i], ?_, List.getElem?_eq_getElem hlt, rfl⟩
      simp only [locationsFrom_getElem?]
      rw [hrev, List.getElem?_eq_getElem hlt]
      rfl

/-- C13: for samples with `N < 2 ^ 64` frames in total the encoding loops
produce exactly `N` function records and `N` location records; the `j`-th
function record (counting from 1) has ID `j`, the file name `main.go` and the
rendering of the `j`-th visited frame as name, and the `j`-th location record
has ID `j`, the mapping with ID 1 and the single line (`j`-th function
record, line 1). No two records share an ID, so two occurrences of a function
never share a record. -/
theorem C13_records_per_frame (now : Int) (samples : List Sample)
    (h : totalFrames samples < 2 ^ 64) :
    (encode now samples).Function.length = totalFrames samples ∧
    (encode now samples).Location.length = totalFrames samples ∧
    (∀ j, j < totalFrames samples →
      ∃ f, (frameSeq samples)[j]? = some f ∧
        (encode now samples).Function[j]?
          = some { ID := j + 1, Name := f.String, Filename := "main.go" } ∧
        (encode now samples).Location[j]?
          = some { ID := j + 1, Mapping := { ID := 1, HasFunctions := true },
                   Line := [{ Function := { ID := j + 1, Name := f.String,
                                            Filename := "main.go" },
                              Line := 1 }] }) ∧
    (encode now samples).Function.Nodup ∧ (encode now samples).Location.Nodup := by
  obtain ⟨hF, hL, _, _, _, _⟩ := encode_eq now samples
  have hN : 1 + (frameSeq samples).length ≤ 2 ^ 64 := by rw [frameSeq_length]; omega
  obtain ⟨_, hnd, _⟩ := ids_nodup 1 (frameSeq samples).length (le_refl 1) hN
  have hFnd : (functionsFrom 1 (frameSeq samples)).Nodup := by
    apply List.Nodup.of_map (fun f => f.ID)
    rw [functionsFrom_ids]; exact hnd
  refine ⟨?_, ?_, ?_, ?_, ?_⟩
  · rw [hF, functionsFrom_length, frameSeq_length]
  · rw [hL, locationsFrom_length, frameSeq_length]
  · intro j hj
    have hlt : j < (frameSeq samples).length := by rw [frameSeq_length]; exact hj
    have hid : uint64 (1 + j) = j + 1 := by
      rw [uint64_eq_self _ (by omega)]; omega
    refine ⟨(frameSeq samples)[j], List.getElem?_eq_getElem hlt, ?_, ?_⟩
    · rw [hF, functionsFrom_getElem?, List.getElem?_eq_getElem hlt, hid]; rfl
    · rw [hL, locationsFrom_getElem?, List.getElem?_eq_getElem hlt, hid]; rfl
  · rw [hF]; exact hFnd
  · rw [hL, locationsFrom_eq_map]
    apply List.Nodup.map _ hFnd
    intro a b hab
    simp only [ProfileLocation.mk.injEq, List.cons.injEq, ProfileLine.mk.injEq, and_true,
      true_and] at hab
    exact hab.2

/-- Witness of C13 on the two samples of the walk of `recursiveGraph`, which
have three frames: `A`, then `B` and `A`. -/
theorem C13_witness :
    (encode 0 recursiveSamples).Function
      = [{ ID := 1, Name := "main.A", Filename := "main.go" },
         { ID := 2, Name := "main.B", Filename := "main.go" },
         { ID := 3, Name := "main.A", Filename := "main.go" }] ∧
    (encode 0 recursiveSamples).Function.length = totalFrames recursiveSamples :=
  ⟨by decide, (C13_records_per_frame 0 recursiveSamples (by decide)).1⟩

/-! ## Writing the document: claims -/

/-- C17, counterexample: for the samples of `recursiveGraph` and a
destination `out.pprof` that holds two bytes, the first call of lines 132-142
is `os.Create`, which truncates the destination, and validation is the second
call: when the document is validated the destination is already an empty
file. -/
theorem C17_counterexample :
    oneFile.files "out.pprof" = some [7, 7] ∧
    ((outputSteps plainEnv oneFile "out.pprof" (encode 0 recursiveSamples)).map
        (fun e => (e.1, e.2.files "out.pprof")))
      = [(OutputEvent.created "out.pprof", some []),
         (OutputEvent.validated true, some []),
         (OutputEvent.written "out.pprof" true, some [1, 2, 3])] ∧
    (runOutput plainEnv oneFile "out.pprof" 0 recursiveSamples).2 = none ∧
    (runOutput plainEnv oneFile "out.pprof" 0 recursiveSamples).1.files "out.pprof"
      = some [1, 2, 3] := by
  decide

/-- C17, amended: when `os.Create` succeeds, the first call `run` makes after
encoding is the creation of the destination, which leaves it an empty file
whatever it held before and every other file as it was; validation comes
second and sees the destination already empty. Only the write waits for
validation: the bytes of the document are written third, after validation has
passed, and a document that fails validation is not written, `run` returning
the validation error with the destination left as the empty file. The steps
end in the file system `run` returns. -/
theorem C17_created_before_validation (env : OutputEnv) (fs : FileSystem) (dest : String)
    (now : Int) (samples : List Sample) (hc : env.canCreate dest = true) :
    ∃ rest,
      outputSteps env fs dest (encode now samples)
        = (OutputEvent.created dest, osCreate fs dest)
          :: (OutputEvent.validated (CheckValid (encode now samples)), osCreate fs dest)
          :: rest ∧
      (osCreate fs dest).files dest = some [] ∧
      (∀ n, n ≠ dest → (osCreate fs dest).files n = fs.files n) ∧
      (CheckValid (encode now samples) = true →
        ∃ fs2, rest = [(OutputEvent.written dest (env.writeOk (encode now samples)), fs2)] ∧
          fs2.files dest = some (env.written (encode now samples)) ∧
          (runOutput env fs dest now samples).1 = fs2) ∧
      (CheckValid (encode now samples) = false →
        rest = [] ∧ (runOutput env fs dest now samples).1 = osCreate fs dest ∧
        (runOutput env fs dest now samples).2 = some RunError.invalid) := by
  cases hv : CheckValid (encode now samples) with
  | false =>
    refine ⟨[], by simp [outputSteps, hc, hv], by simp [osCreate],
      fun n hn => by simp [osCreate, hn], fun h => (by cases h), fun _ => ?_⟩
    simp [runOutput, writeOutput, hc, hv]
  | true =>
    refine ⟨_, by simp only [outputSteps, hc, hv]; rfl, by simp [osCreate],
      fun n hn => by simp [osCreate, hn], fun _ => ⟨_, rfl, by simp, ?_⟩, fun h => (by cases h)⟩
    simp only [runOutput, writeOutput, hc, hv]
    by_cases hw : env.writeOk (encode now samples) = false <;> simp [hw]

/-- Witness of C17 on a file system that holds the destination already, for
the samples of `recursiveGraph`. -/
theorem C17_witness :
    ∃ rest,
      outputSteps plainEnv oneFile "out.pprof" (encode 0 recursiveSamples)
        = (OutputEvent.created "out.pprof", osCreate oneFile "out.pprof")
          :: (OutputEvent.validated (CheckValid (encode 0 recursiveSamples)),
              osCreate oneFile "out.pprof")
          :: rest ∧
      (osCreate oneFile "out.pprof").files "out.pprof" = some [] := by
  obtain ⟨rest, h1, h2, _⟩ := C17_created_before_validation plainEnv oneFile "out.pprof" 0
    recursiveSamples (by decide)
  exact ⟨rest, h1, h2⟩

/-! ## The walk against its specification -/

theorem eligible_iff (g : Graph) (s : Stack) (callee : NodeId) (fn : Func)
    (hfn : NewFunc (g.node callee) = some fn) :
    eligible g s callee = true ↔ s.stack.length < 8 ∧ ¬ isInit fn ∧ fn ∉ s.seen := by
  simp [eligible, hfn]

theorem eligible_none (g : Graph) (s : Stack) (callee : NodeId)
    (hfn : NewFunc (g.node callee) = none) : eligible g s callee = false := by
  simp [eligible, hfn]

theorem eligible_length (g : Graph) (s : Stack) (callee : NodeId)
    (h : eligible g s callee = true) : s.stack.length < 8 := by
  cases hfn : NewFunc (g.node callee) with
  | none => rw [eligible_none g s callee hfn] at h; cases h
  | some fn => exact ((eligible_iff g s callee fn hfn).1 h).1

theorem filter_eligible_nil (g : Graph) (s : Stack) (h8 : s.stack.length ≥ 8)
    (edges : List NodeId) : edges.filter (eligible g s) = [] := by
  rw [List.filter_eq_nil_iff]
  intro a _ he
  have := eligible_length g s a he
  omega

theorem own_eq_emit (g : Graph) (s : Stack) (n : NodeId) (c : Int)
    (h : weigh s (g.node n) = some c) (out : List Sample) :
    emit s c out = out ++ own g s n := by
  rw [emit_eq, own, h]

theorem forOut_produced (g : Graph) (s : Stack) (hlen : s.stack.length < 8)
    (visit : Stack → NodeId → List Sample → Outcome) (child : NodeId → List Sample)
    (h : ∀ callee fn o o1, NewFunc (g.node callee) = some fn →
      visit (s.Add fn) callee o = Outcome.ok o1 → o1 = o ++ child callee) :
    ∀ (edges : List NodeId) (out out1 : List Sample),
      forOut visit g s edges out = Outcome.ok out1 →
      out1 = out ++ (edges.filter (eligible g s)).flatMap child := by
  intro edges
  induction edges with
  | nil =>
    intro out out1 hok
    simp only [forOut, Outcome.ok.injEq] at hok
    simp [hok]
  | cons callee rest ih =>
    intro out out1 hok
    rcases edge_cases g s callee with hn | ⟨fn, hfn, hi | hs | ⟨hi, hs⟩⟩
    · rw [forOut_panic visit g s callee rest out hn] at hok
      cases hok
    · have he : eligible g s callee = false := by
        rw [Bool.eq_false_iff]; intro he; exact ((eligible_iff g s callee fn hfn).1 he).2.1 hi
      rw [forOut_skip_init visit g s callee rest out fn hfn hi] at hok
      rw [ih out out1 hok, List.filter_cons, he]
      simp
    · have he : eligible g s callee = false := by
        rw [Bool.eq_false_iff]; intro he; exact ((eligible_iff g s callee fn hfn).1 he).2.2 hs
      rw [forOut_skip_seen visit g s callee rest out fn hfn hs] at hok
      rw [ih out out1 hok, List.filter_cons, he]
      simp
    · have he : eligible g s callee = true :=
        (eligible_iff g s callee fn hfn).2 ⟨hlen, hi, hs⟩
      rw [forOut_descend visit g s callee rest out fn hfn hi hs] at hok
      cases hv : visit (s.Add fn) callee out with
      | ok o =>
        rw [hv] at hok
        simp only at hok
        rw [ih o out1 hok, h callee fn out o hfn hv, List.filter_cons, he]
        simp [List.flatMap_cons, List.append_assoc]
      | crash => rw [hv] at hok; cases hok
      | outOfFuel => rw [hv] at hok; cases hok

/-- The list a call returns is the list the specification words produce. -/
theorem walk_produced (g : Graph) :
    ∀ (fuel : Nat) (s : Stack) (n : NodeId) (out out1 : List Sample),
      createStaticProfile fuel g s n out = Outcome.ok out1 →
      out1 = out ++ produced fuel g s n := by
  intro fuel
  induction fuel with
  | zero =>
    intro s n out out1 hok
    cases hok
  | succ fuel ih =>
    intro s n out out1 hok
    rw [createStaticProfile_succ] at hok
    cases hc : weigh s (g.node n) with
    | none => rw [hc] at hok; cases hok
    | some c =>
      rw [hc] at hok
      by_cases h8 : s.stack.length ≥ 8
      · simp only [h8, if_true, Outcome.ok.injEq] at hok
        rw [produced, filter_eligible_nil g s h8, ← hok, own_eq_emit g s n c hc]
        simp
      · simp only [h8, if_false] at hok
        have hf := forOut_produced g s (by omega) (createStaticProfile fuel g)
          (fun callee => match NewFunc (g.node callee) with
            | none => []
            | some fn => produced fuel g (s.Add fn) callee)
          (fun callee fn o o1 hfn hv => by
            simp only [hfn]
            exact ih (s.Add fn) callee o o1 hv)
          (g.node n).Out _ out1 hok
        rw [hf, own_eq_emit g s n c hc, produced, List.append_assoc]

/-- C18: whenever a call of `createStaticProfile` for `(s, n)` returns, the
list it has appended is `produced`: the own sample of `n`, if any, followed by
the concatenation, over the eligible outgoing edges of `n` in graph order, of
the lists produced for the extended path and the callee; the call does return
when `NewFunc` succeeds on every node. The list produced below an edge is the
same whatever was walked before it and whatever list it is appended to. On the
diamond
`root -> A -> C`, `root -> B -> C` the leaf `C` is emitted twice, with the
frames `[A, C]` and `[B, C]`. -/
theorem C18_per_path_tracking (g : Graph) (fuel : Nat) (s : Stack) (n : NodeId)
    (out : List Sample) :
    (∀ out1, createStaticProfile fuel g s n out = Outcome.ok out1 →
      out1 = out ++ produced fuel g s n) ∧
    ((∀ c, NewFunc (g.node c) ≠ none) → 8 ≤ fuel + s.stack.length →
      (1 ≤ s.stack.length ∨ (g.node n).Fn.Syn = none) →
      createStaticProfile (fuel + 1) g s n out
        = Outcome.ok (out ++ produced (fuel + 1) g s n)) ∧
    produced (fuel + 1) g s n
      = own g s n ++ ((g.node n).Out.filter (eligible g s)).flatMap
          (fun callee =>
            match NewFunc (g.node callee) with
            | none => []
            | some fn => produced fuel g (s.Add fn) callee) ∧
    (∀ callee fn before after, NewFunc (g.node callee) = some fn →
      createStaticProfile fuel g (s.Add fn) callee before = Outcome.ok after →
      after = before ++ produced fuel g (s.Add fn) callee) ∧
    runWalk 9 diamondGraph
      = Outcome.ok [{ Frames := [funcA], Count := 10 }, { Frames := [funcA, funcC], Count := 1 },
          { Frames := [funcB], Count := 10 }, { Frames := [funcB, funcC], Count := 1 }] ∧
    produced 9 diamondGraph NewStack diamondGraph.Root
      = [{ Frames := [funcA], Count := 10 }, { Frames := [funcA, funcC], Count := 1 },
          { Frames := [funcB], Count := 10 }, { Frames := [funcB, funcC], Count := 1 }] := by
  refine ⟨walk_produced g fuel s n out, ?_, by rw [produced], ?_, by decide, by decide⟩
  · intro hrecv hf hs
    obtain ⟨out1, h⟩ := createStaticProfile_returns g hrecv fuel s n out hf hs
    rw [h, walk_produced g (fuel + 1) s n out out1 h]
  · intro callee fn before after _ h
    exact walk_produced g fuel (s.Add fn) callee before after h

/-! ## Samples and chains of edges -/

theorem foldl_Add_stack (fs : List Func) (s : Stack) :
    (fs.foldl Stack.Add s).stack = s.stack ++ fs := by
  induction fs generalizing s with
  | nil => simp
  | cons f fs ih => rw [List.foldl_cons, ih, Stack.Add_stack]; simp

theorem weigh_length (s t : Stack) (n : Node) (h : s.stack.length = t.stack.length) :
    weigh s n = weigh t n := by
  unfold weigh selfWeight
  rw [h]

theorem produced_extends (g : Graph) :
    ∀ (fuel : Nat) (s : Stack) (n : NodeId), ∀ smp ∈ produced fuel g s n,
      s.stack <+: smp.Frames := by
  intro fuel
  induction fuel with
  | zero => intro s n smp h; simp [produced] at h
  | succ fuel ih =>
    intro s n smp h
    rw [produced, List.mem_append, List.mem_flatMap] at h
    rcases h with h | ⟨c, _, h⟩
    · rw [(mem_own g s n smp h).1]
    · cases hfn : NewFunc (g.node c) with
      | none => simp [hfn] at h
      | some fn =>
        simp only [hfn] at h
        exact (prefix_Add s _).trans (ih _ c smp h)

theorem count_own (g : Graph) (s : Stack) (n : NodeId) (frames : List Func) (w : Int)
    (hw : 0 < w) :
    List.count { Frames := frames, Count := w } (own g s n)
      = if frames = s.stack ∧ weigh s (g.node n) = some w then 1 else 0 := by
  unfold own
  cases hc : weigh s (g.node n) with
  | none => simp
  | some c =>
    unfold emit
    by_cases hpos : c > 0
    · simp only [hpos, if_true, List.nil_append, List.count_singleton, beq_iff_eq,
        Sample.mk.injEq, Option.some.injEq]
      by_cases h1 : frames = s.stack <;> by_cases h2 : c = w <;> simp [h1, h2, eq_comm]
    · have hne : c ≠ w := by omega
      simp [hpos, hne]

theorem sum_filter_congr (l : List NodeId) (p q : NodeId → Bool) (F G : NodeId → Nat)
    (h1 : ∀ c ∈ l, q c = true → p c = true ∧ F c = G c)
    (h2 : ∀ c ∈ l, p c = true → q c = false → F c = 0) :
    ((l.filter p).map F).sum = ((l.filter q).map G).sum := by
  induction l with
  | nil => rfl
  | cons a l ih =>
    have ih' := ih (fun c hc => h1 c (List.mem_cons_of_mem _ hc))
      (fun c hc => h2 c (List.mem_cons_of_mem _ hc))
    cases hq : q a with
    | true =>
      obtain ⟨hp, hFG⟩ := h1 a (List.mem_cons_self _ _) hq
      simp [List.filter_cons, hq, hp, hFG, ih']
    | false =>
      cases hp : p a with
      | true =>
        have hF := h2 a (List.mem_cons_self _ _) hp hq
        simp [List.filter_cons, hq, hp, hF, ih']
      | false => simp [List.filter_cons, hq, hp, ih']

/-- The number of times a sample with given frames and positive count occurs
in the list produced for `(s, n)` is the number of chains of edges from `n`
with these identities whose end node has this count. -/
theorem count_produced (g : Graph) (w : Int) (hw : 0 < w) :
    ∀ (fs : List Func) (fuel : Nat) (s : Stack) (n : NodeId),
      fs.length < fuel → (∀ f, f ∈ s.seen ↔ f ∈ s.stack) → (s.stack ++ fs).Nodup →
      (∀ f ∈ fs, ¬ isInit f) → s.stack.length + fs.length ≤ 8 →
      List.count { Frames := s.stack ++ fs, Count := w } (produced fuel g s n)
        = chainCount g w s n fs := by
  intro fs
  induction fs with
  | nil =>
    intro fuel s n hfuel _ _ _ _
    obtain ⟨k, rfl⟩ : ∃ k, fuel = k + 1 := ⟨fuel - 1, by simp at hfuel; omega⟩
    rw [produced, List.count_append, count_own g s n _ w hw, List.append_nil]
    have hz : List.count { Frames := s.stack, Count := w }
        (((g.node n).Out.filter (eligible g s)).flatMap
          (fun callee =>
            match NewFunc (g.node callee) with
            | none => []
            | some fn => produced k g (s.Add fn) callee)) = 0 := by
      apply List.count_eq_zero_of_not_mem
      intro hmem
      obtain ⟨c, _, hc⟩ := List.mem_flatMap.1 hmem
      cases hfn : NewFunc (g.node c) with
      | none => simp [hfn] at hc
      | some fn =>
        simp only [hfn] at hc
        have hp := (produced_extends g k _ c _ hc).length_le
        rw [Stack.Add_length] at hp
        simp only at hp
        omega
    rw [hz]
    simp [chainCount]
  | cons f fs ih =>
    intro fuel s n hfuel hseen hnd hinit hlen
    obtain ⟨k, rfl⟩ : ∃ k, fuel = k + 1 := ⟨fuel - 1, by simp at hfuel; omega⟩
    simp only [List.length_cons] at hfuel hlen
    have hf_not_mem : f ∉ s.stack := by
      intro hmem
      have := (List.nodup_append.1 hnd).2.2
      exact this hmem (List.mem_cons_self _ _)
    have hown : List.count { Frames := s.stack ++ f :: fs, Count := w } (own g s n) = 0 := by
      rw [count_own g s n _ w hw]
      have hne : s.stack ++ f :: fs ≠ s.stack := by
        intro h
        have := congrArg List.length h
        simp at this
      simp [hne]
    rw [produced, List.count_append, hown, Nat.zero_add, List.count_flatMap, chainCount]
    apply sum_filter_congr
    · intro c _ hq
      have hcf : NewFunc (g.node c) = some f := by simpa using hq
      refine ⟨(eligible_iff g s c f hcf).2 ⟨by omega, ?_, ?_⟩, ?_⟩
      · exact hinit f (List.mem_cons_self _ _)
      · rw [hseen]; exact hf_not_mem
      · simp only [Function.comp, hcf]
        have hst : (s.Add f).stack ++ fs = s.stack ++ f :: fs := by
          rw [Stack.Add_stack]; simp
        have := ih k (s.Add f) c (by omega)
          (fun x => by
            rw [Stack.mem_Add_seen, Stack.Add_stack, List.mem_append, List.mem_singleton, hseen]
            exact or_comm)
          (by rw [hst]; exact hnd)
          (fun x hx => hinit x (List.mem_cons_of_mem _ hx))
          (by rw [Stack.Add_length]; omega)
        rw [hst] at this
        exact this
    · intro c _ _ hq
      have hcf : NewFunc (g.node c) ≠ some f := by simpa using hq
      simp only [Function.comp]
      apply List.count_eq_zero_of_not_mem
      intro hmem
      cases hfn : NewFunc (g.node c) with
      | none => simp [hfn] at hmem
      | some fn =>
        simp only [hfn] at hmem
        have hp := produced_extends g k _ c _ hmem
        rw [Stack.Add_stack] at hp
        simp only at hp
        have hp' : [fn] <+: f :: fs := (List.prefix_append_right_inj s.stack).1 hp
        rw [hfn, (List.cons_prefix_cons.1 hp').1] at hcf
        exact hcf rfl

theorem chain_snoc (g : Graph) (b : NodeId) :
    ∀ (l : List NodeId) (a : NodeId),
      List.Chain (fun x y => y ∈ (g.node x).Out) a l → b ∈ (g.node (l.getLastD a)).Out →
      List.Chain (fun x y => y ∈ (g.node x).Out) a (l ++ [b]) := by
  intro l
  induction l with
  | nil => intro a _ hb; simpa using hb
  | cons c l ih =>
    intro a hc hb
    rw [List.chain_cons] at hc
    rw [List.getLastD_cons] at hb
    rw [List.cons_append, List.chain_cons]
    exact ⟨hc.1, ih c hc.2 hb⟩

/-- Every call of the walk of `run` is reached by a chain of edges from the
root whose identities are the path of the call. -/
theorem visits_chain (g : Graph) (fuel : Nat) :
    ∀ p ∈ (visits fuel g NewStack g.Root).1,
      ∃ nodes, List.Chain (fun x y => y ∈ (g.node x).Out) g.Root nodes ∧
        p.1.stack.map some = framesOf g nodes ∧ nodes.getLastD g.Root = p.2 :=
  visits_inv g
    (fun s n => ∃ nodes, List.Chain (fun x y => y ∈ (g.node x).Out) g.Root nodes ∧
      s.stack.map some = framesOf g nodes ∧ nodes.getLastD g.Root = n)
    (fun s n callee fn hP _ hc hfn _ _ => by
      obtain ⟨nodes, h1, h2, h3⟩ := hP
      refine ⟨nodes ++ [callee], chain_snoc g callee nodes g.Root h1 (by rw [h3]; exact hc), ?_,
        List.getLastD_concat _ _ _⟩
      rw [Stack.Add_stack, List.map_append, h2]
      simp [framesOf, hfn])
    fuel NewStack g.Root ⟨[], List.Chain.nil, rfl, rfl⟩

theorem chainCount_pos (g : Graph) (w : Int) :
    ∀ (nodes : List NodeId) (frames : List Func) (s : Stack) (n : NodeId),
      List.Chain (fun x y => y ∈ (g.node x).Out) n nodes →
      framesOf g nodes = frames.map some →
      weigh (frames.foldl Stack.Add s) (g.node (nodes.getLastD n)) = some w →
      1 ≤ chainCount g w s n frames := by
  intro nodes
  induction nodes with
  | nil =>
    intro frames s n _ hfr hw
    cases frames with
    | nil =>
      simp only [List.foldl_nil, List.getLastD_nil] at hw
      simp [chainCount, hw]
    | cons f fs => simp [framesOf] at hfr
  | cons c rest ih =>
    intro frames s n hc hfr hw
    cases frames with
    | nil => simp [framesOf] at hfr
    | cons f fs =>
      rw [List.chain_cons] at hc
      simp only [framesOf, List.map_cons, List.cons.injEq] at hfr
      simp only [List.foldl_cons, List.getLastD_cons] at hw
      have hrec := ih fs (s.Add f) c hc.2 hfr.2 hw
      simp only [chainCount]
      have hmem : chainCount g w (s.Add f) c fs
          ∈ (((g.node n).Out.filter (fun c1 => decide (NewFunc (g.node c1) = some f))).map
            (fun c1 => chainCount g w (s.Add f) c1 fs)) := by
        apply List.mem_map.2
        exact ⟨c, List.mem_filter.2 ⟨hc.1, by simp [hfr.1]⟩, rfl⟩
      exact le_trans hrec (List.le_sum_of_mem hmem)

/-- Soundness and completeness of the walk of `run` when it returns its list:
every sample has as frames the identities of the nodes of a chain of edges
from the root and as count the count of the end node weighed at that path; for
every chain of at most 8 edges from the root whose identities are pairwise
distinct, none of them the plain `init`, and whose end node has a positive
count at that path, the sample with these frames and this count is in the
list; and the number of times a sample occurs is the number of such chains
with its frames and its count. -/
theorem walk_sound_complete (g : Graph) (fuel : Nat) (out : List Sample)
    (h : runWalk fuel g = Outcome.ok out) :
    (∀ smp ∈ out, ∃ nodes,
      List.Chain (fun x y => y ∈ (g.node x).Out) g.Root nodes ∧
      smp.Frames.map some = framesOf g nodes ∧
      weigh (smp.Frames.foldl Stack.Add NewStack) (g.node (nodes.getLastD g.Root))
        = some smp.Count) ∧
    (∀ (nodes : List NodeId) (frames : List Func) (w : Int),
      List.Chain (fun x y => y ∈ (g.node x).Out) g.Root nodes →
      framesOf g nodes = frames.map some →
      frames.length ≤ 8 → frames.Nodup →
      (∀ f ∈ frames, ¬ (f.Name = "init" ∧ f.Receiver = "")) → 0 < w →
      weigh (frames.foldl Stack.Add NewStack) (g.node (nodes.getLastD g.Root)) = some w →
      { Frames := frames, Count := w } ∈ out) ∧
    (∀ (frames : List Func) (w : Int), frames.length ≤ 8 → frames.Nodup →
      (∀ f ∈ frames, ¬ (f.Name = "init" ∧ f.Receiver = "")) → 0 < w →
      List.count { Frames := frames, Count := w } out
        = chainCount g w NewStack g.Root frames) := by
  have hbig : createStaticProfile (fuel + 9) g NewStack g.Root [] = Outcome.ok out := by
    have hne : createStaticProfile fuel g NewStack g.Root [] ≠ Outcome.outOfFuel := by
      unfold runWalk at h; rw [h]; simp
    rw [createStaticProfile_mono_add g fuel NewStack g.Root [] hne 9]
    exact h
  have hout : out = produced (fuel + 9) g NewStack g.Root := by
    have := walk_produced g (fuel + 9) NewStack g.Root [] out hbig
    simpa using this
  have hcount : ∀ (frames : List Func) (w : Int), frames.length ≤ 8 → frames.Nodup →
      (∀ f ∈ frames, ¬ (f.Name = "init" ∧ f.Receiver = "")) → 0 < w →
      List.count { Frames := frames, Count := w } out
        = chainCount g w NewStack g.Root frames := by
    intro frames w hlen hnd hinit hw
    have := count_produced g w hw frames (fuel + 9) NewStack g.Root (by omega)
      (by simp [NewStack]) (by simpa [NewStack] using hnd) hinit (by simp [NewStack]; omega)
    rw [hout]
    simpa [NewStack] using this
  refine ⟨?_, ?_, hcount⟩
  · intro smp hsmp
    obtain ⟨p, hp, hf, _, hw⟩ := runWalk_samples g fuel _ h smp hsmp
    obtain ⟨nodes, h1, h2, h3⟩ := visits_chain g fuel p hp
    refine ⟨nodes, h1, by rw [hf, h2], ?_⟩
    rw [h3, ← hw]
    apply weigh_length
    rw [foldl_Add_stack, hf]
    simp [NewStack]
  · intro nodes frames w hchain hfr hlen hnd hinit hw hweigh
    have hpos := chainCount_pos g w nodes frames NewStack g.Root hchain hfr hweigh
    rw [← hcount frames w hlen hnd hinit hw] at hpos
    exact List.count_pos_iff.1 hpos

/-- C20, failing input: in `unnamedReceiverGraph`, whose body sizes are
non-negative and whose root has no syntax, the edge `root -> A` is a chain of
length 1 whose identity `A` is not the plain `init` and whose end node has the
positive count 41 at path length 1, yet the walk of `run` returns no list and
so no sample with the frames `[A]`: it panics in `NewFunc` at the next edge of
the root, the method whose receiver is a pointer to an unnamed type. -/
theorem C20_failing_input :
    (unnamedReceiverGraph.node unnamedReceiverGraph.Root).Fn.Syn = none ∧
    (∀ c ∈ [0, 1, 2], 0 ≤ bodySize (unnamedReceiverGraph.node c)) ∧
    List.Chain (fun x y => y ∈ (unnamedReceiverGraph.node x).Out)
      unnamedReceiverGraph.Root [1] ∧
    framesOf unnamedReceiverGraph [1] = [some funcA] ∧ ¬ isInit funcA ∧
    weigh ([funcA].foldl Stack.Add NewStack) (unnamedReceiverGraph.node 1) = some 41 ∧
    NewFunc (unnamedReceiverGraph.node 2) = none ∧
    runWalk 9 unnamedReceiverGraph = Outcome.crash ∧
    ¬ ∃ fuel out, runWalk fuel unnamedReceiverGraph = Outcome.ok out :=
  ⟨by decide, by decide, List.Chain.cons (by decide) List.Chain.nil, by decide, by decide,
    by decide, by decide, by decide, unnamedReceiverGraph_no_result⟩

end Sprof
